import Mathlib

/-!
Verification of the `jsondp` compact binary codec (encode.rs, lib.rs,
decode.rs, dictionary.rs) against its natural-language specification.

Shallow embedding conventions:
* Rust byte streams are `List Nat` (each element a byte value `< 256`);
  readers consume from the front of the list.
* Rust `String` values are modelled as their UTF-8 byte sequences
  (`List Nat`); the `String::from_utf8` validity check is not modelled
  (every string fed to the encoder is valid UTF-8, and no claim hinges
  on UTF-8 validity).
* `serde_json::Value` is the inductive `JValue`; `serde_json::Number`
  is `JNum` with the canonical serde representation: non-negative
  integers are `posInt`, negative integers are `negInt`, floats are
  carried as their IEEE-754 bit pattern (`f64::to_bits`), which is what
  the codec reads and writes.
* Fallible Rust code (`anyhow::Result`) is `Option`; panics (such as
  the `4 - rev.len()` usize underflow in encode.rs) are also `none`.
* Recursion over the JSON tree uses an explicit fuel parameter so that
  every definition is a computable structural recursion; claims are
  stated for sufficient fuel (`jsize v ≤ fuel`).
-/

/-! ## Byte-stream primitives (decode.rs) -/

/-- Read one byte from the stream (`next_u8`); `none` models the
short-read error of `read_exact`. -/
def takeByte : List Nat → Option (Nat × List Nat)
  | [] => none
  | b :: bs => some (b, bs)

/-- Read exactly `n` bytes (`next` / `read_exact`). -/
def takeN (n : Nat) (bs : List Nat) : Option (List Nat × List Nat) :=
  if n ≤ bs.length then some (bs.take n, bs.drop n) else none

/-- Little-endian value of a byte list (how `next_u16`, `next_u32`,
`next_u64`, `next_u128` assemble their result). -/
def leVal : List Nat → Nat
  | [] => 0
  | b :: bs => b + 256 * leVal bs

/-- `k`-byte little-endian encoding of `v` (Rust `to_le_bytes`);
truncates to `k` bytes exactly like the `as uN` casts. -/
def leBytes : Nat → Nat → List Nat
  | 0, _ => []
  | k + 1, v => v % 256 :: leBytes k (v / 256)

/-- `k`-byte big-endian encoding (Rust `to_be_bytes`). -/
def beBytes (k v : Nat) : List Nat :=
  (leBytes k v).reverse

/-- Read `k` bytes and assemble them little-endian
(`next_u16`/`next_u32`/`next_u64`/`next_u128`). -/
def readLE (k : Nat) (bs : List Nat) : Option (Nat × List Nat) := do
  let (w, bs) ← takeN k bs
  some (leVal w, bs)

/-! ## Hex helpers (the `hex` crate as used by the codec) -/

/-- Value of one ASCII hex digit, as accepted by `hex::decode`. -/
def hexVal (c : Nat) : Option Nat :=
  if 48 ≤ c ∧ c ≤ 57 then some (c - 48)
  else if 97 ≤ c ∧ c ≤ 102 then some (c - 87)
  else if 65 ≤ c ∧ c ≤ 70 then some (c - 55)
  else none

/-- Lowercase hex digit for a value `< 16` (`hex::encode` output). -/
def hexDigit (n : Nat) : Nat :=
  if n < 10 then 48 + n else 87 + n

/-- `hex::encode`: two lowercase digits per byte. -/
def hexEncode (bs : List Nat) : List Nat :=
  bs.flatMap fun b => [hexDigit (b / 16), hexDigit (b % 16)]

/-- `hex::decode`: pairs of hex digits to bytes; fails on an odd length
or a non-hex character. -/
def hexDecode : List Nat → Option (List Nat)
  | [] => some []
  | [_] => none
  | c1 :: c2 :: cs => do
    let v1 ← hexVal c1
    let v2 ← hexVal c2
    let rest ← hexDecode cs
    some ((16 * v1 + v2) :: rest)

/-- encode.rs: odd-length hex payloads get a single leading `'0'`
character (byte 48) before decoding. -/
def hexPad (r : List Nat) : List Nat :=
  if r.length % 2 = 0 then r else 48 :: r

/-- encode.rs `with_0x`: length strictly greater than 2 and the first
two bytes are ASCII `0x`. -/
def with0x : List Nat → Bool
  | 48 :: 120 :: _ :: _ => true
  | _ => false

/-! ## Dictionaries (dictionary.rs trait `DictionaryRead`) -/

/-- The `DictionaryRead` trait: lookup by id and lookup by bytes. -/
structure Dict where
  get : Nat → Option (List Nat)
  find : List Nat → Option Nat

/-- `NoDictionary`: never matches. -/
def nodict : Dict := ⟨fun _ => none, fun _ => none⟩

/-- Consistency of a dictionary as used by the codec: every id returned
by lookup-by-bytes is a real `u32` and maps back to the same bytes. -/
def DictOK (d : Dict) : Prop :=
  ∀ s id, d.find s = some id → id < 4294967296 ∧ d.get id = some s

/-! ## The JSON data model (serde_json `Value` / `Number`) -/

/-- `serde_json::Number`, canonical representation: `PosInt` for
non-negative integers, `NegInt` for negative ones, `Float` carried as
its `f64` bit pattern. -/
inductive JNum where
  | posInt (v : Nat)
  | negInt (v : Int)
  | float (bits : Nat)
  deriving DecidableEq

/-- `serde_json::Value`; objects are ordered association lists of
UTF-8 key bytes to values (insertion order preserved). -/
inductive JValue where
  | null
  | bool (b : Bool)
  | num (n : JNum)
  | str (s : List Nat)
  | arr (xs : List JValue)
  | obj (m : List (List Nat × JValue))

/-- UTF-8 bytes of a Lean string literal (for readable concrete
values; all literals used are ASCII). -/
def sBytes (s : String) : List Nat :=
  s.data.map Char.toNat

/-- serde map `get`: first entry with the given key. -/
def mapGet (m : List (List Nat × JValue)) (k : List Nat) : Option JValue :=
  match m with
  | [] => none
  | (k0, v0) :: rest => if k0 = k then some v0 else mapGet rest k

/-- serde map `insert` (order-preserving): replace in place if the key
exists, otherwise append. -/
def mapPut (m : List (List Nat × JValue)) (k : List Nat) (v : JValue) :
    List (List Nat × JValue) :=
  match m with
  | [] => [(k, v)]
  | (k0, v0) :: rest =>
    if k0 = k then (k0, v) :: rest else (k0, v0) :: mapPut rest k v

/-- Build a serde map by inserting entries in order (decode_object's
`m.insert` loop). -/
def mkMap (kvs : List (List Nat × JValue)) : List (List Nat × JValue) :=
  kvs.foldl (fun m kv => mapPut m kv.1 kv.2) []

/-- `f64::is_finite` on the bit pattern: the 11 exponent bits are not
all ones (`Number::from_f64` rejects NaN and infinities). -/
def isFiniteBits (bits : Nat) : Bool :=
  bits / 2 ^ 52 % 2 ^ 11 ≠ 2047

/-! ## Encoder (encode.rs) -/

/-- `encode_number`, `is_i64` branch: the narrow-first signed cascade.
Payload bytes are the two's-complement little-endian bytes. -/
def encI (v : Int) : List Nat :=
  if v = 0 then [18]
  else if -128 ≤ v ∧ v ≤ 127 then 3 :: leBytes 1 (v % 256).toNat
  else if -32768 ≤ v ∧ v ≤ 32767 then 6 :: leBytes 2 (v % 65536).toNat
  else if -2147483648 ≤ v ∧ v ≤ 2147483647 then
    8 :: leBytes 4 (v % 4294967296).toNat
  else 10 :: leBytes 8 (v % 18446744073709551616).toNat

/-- `encode_number`, `is_u64` branch (reached only when `is_i64` is
false): the narrow-first unsigned cascade. -/
def encU (v : Nat) : List Nat :=
  if v = 0 then [18]
  else if v ≤ 255 then 2 :: leBytes 1 v
  else if v ≤ 65535 then 5 :: leBytes 2 v
  else if v ≤ 4294967295 then 7 :: leBytes 4 v
  else 9 :: leBytes 8 v

/-- `encode_number`: `is_i64` is tested first; a `PosInt` is `is_i64`
whenever it is at most `i64::MAX`, so such values take the signed
cascade.  Floats are always written as tag 17 plus the 8-byte
little-endian bit pattern. -/
def encodeNumber : JNum → Option (List Nat)
  | .posInt v =>
    if v ≤ 9223372036854775807 then some (encI v) else some (encU v)
  | .negInt v => some (encI v)
  | .float bits => some (17 :: leBytes 8 bits)

/-- Fixed-width hex bucket write (B32/B64/B128/B160/B256): reversed
payload bytes, zero-padded on the wire to `width` bytes.  The source
computes `width - rev.len()` in `usize`; when the payload is longer
than the width (reachable only via the `bytes_num` `as u8` wraparound
at payload length 256) that subtraction underflows and panics, which is
modelled as `none`. -/
def bWide (tag width : Nat) (out : List Nat) : Option (List Nat) :=
  if out.length ≤ width then
    some (tag :: (out.reverse ++ List.replicate (width - out.length) 0))
  else none

/-- `encode_string`: hex path first (classified by decoded byte count,
with the `out.len() as u8` cast of the source), then the long string
form for `len > 256`, then the value-dictionary lookup, then the inline
short form. -/
def encodeString (vd : Dict) (s : List Nat) : Option (List Nat) :=
  if with0x s then
    match hexDecode (hexPad (s.drop 2)) with
    | none => none
    | some out =>
      if 256 < out.length then
        some (23 :: leBytes 2 (s.length % 65536) ++ out)
      else
        let bn := out.length % 256
        if bn = 1 then some (4 :: out)
        else if bn = 2 then
          some (12 :: leBytes 2 (out.getD 0 0 + 256 * out.getD 1 0))
        else if bn ≤ 4 then bWide 13 4 out
        else if bn ≤ 8 then bWide 11 8 out
        else if bn ≤ 16 then bWide 14 16 out
        else if bn ≤ 20 then bWide 15 20 out
        else if bn ≤ 32 then bWide 16 32 out
        else some (19 :: bn :: out)
  else if 256 < s.length then
    some (24 :: leBytes 2 (s.length % 65536) ++ s)
  else
    match vd.find s with
    | some id => some (52 :: leBytes 4 id)
    | none => some (20 :: s.length % 256 :: s)

/-- The `hex` half of `big_number`: a string entry under key `hex`
with a `0x` prefix yields its decoded bytes; a hex-decoding failure is
the `Err` case (`.error`), which `encode_object` treats like a
non-match. -/
def bigNumberHex (m : List (List Nat × JValue)) :
    Except Unit (Option (List Nat)) :=
  match mapGet m (sBytes "hex") with
  | some (JValue.str s) =>
    if with0x s then
      match hexDecode (hexPad (s.drop 2)) with
      | some out => .ok (some out)
      | none => .error ()
    else .ok none
  | _ => .ok none

/-- `big_number`: an object of exactly two entries whose `type`, if
present and a string, equals `"BigNumber"`, and whose `hex` entry is a
`0x`-string, yields the decoded hex bytes. -/
def bigNumber (m : List (List Nat × JValue)) : Except Unit (Option (List Nat)) :=
  if m.length = 2 then
    match mapGet m (sBytes "type") with
    | some (JValue.str t) =>
      if t ≠ sBytes "BigNumber" then .ok none else bigNumberHex m
    | _ => bigNumberHex m
  else .ok none

/-- One object entry (`encode_object` loop body): field-dictionary hit
writes the width-flagged header byte (`0x40|U8`, `0x80|U16`, `0xC0|U32`)
plus the id; a miss writes the key via `encode_string`. -/
def encodeKeyBytes (fd vd : Dict) (k : List Nat) : Option (List Nat) :=
  match fd.find k with
  | some id =>
    if 65535 < id then some (199 :: leBytes 4 id)
    else if 255 < id then some (133 :: leBytes 2 id)
    else some [66, id % 256]
  | none => encodeString vd k

/-- Encode the entries of an object in order, given an encoder for the
values. -/
def encodeEntriesV (fd vd : Dict) (enc : JValue → Option (List Nat)) :
    List (List Nat × JValue) → Option (List Nat)
  | [] => some []
  | (k, v) :: rest => do
    let kb ← encodeKeyBytes fd vd k
    let vb ← enc v
    let rb ← encodeEntriesV fd vd enc rest
    some (kb ++ vb ++ rb)

/-- Encode the elements of an array in order. -/
def encodeSeq (enc : JValue → Option (List Nat)) :
    List JValue → Option (List Nat)
  | [] => some []
  | x :: rest => do
    let b ← enc x
    let rb ← encodeSeq enc rest
    some (b ++ rb)

/-- `encode_value`, with fuel for the recursion over the JSON tree.
Arrays of more than 256 elements use the long form (tag 25, u16 count);
otherwise the short form (tag 21, `len as u8` count).  Objects matching
`big_number` are written as a generic byte blob (tag 19); all other
objects use the short form (tag 22, `len as u8`) — the source never
emits the long object form 26. -/
def encodeV (fd vd : Dict) : Nat → JValue → Option (List Nat)
  | 0, _ => none
  | _ + 1, .null => some [31]
  | _ + 1, .bool b => some [if b then 1 else 0]
  | _ + 1, .num n => encodeNumber n
  | _ + 1, .str s => encodeString vd s
  | fuel + 1, .arr xs => do
    let body ← encodeSeq (fun x => encodeV fd vd fuel x) xs
    if 256 < xs.length then
      some (25 :: leBytes 2 (xs.length % 65536) ++ body)
    else
      some (21 :: xs.length % 256 :: body)
  | fuel + 1, .obj m =>
    match bigNumber m with
    | .ok (some out) => some (19 :: out.length % 256 :: out)
    | _ => do
      let body ← encodeEntriesV fd vd (fun x => encodeV fd vd fuel x) m
      some (22 :: m.length % 256 :: body)

/-! ## Decoder (lib.rs `decode` / `decode_object`) -/

/-- `Number::from` on a signed `k*8`-bit read: the unsigned value `u`
reinterpreted in two's complement, stored canonically (`posInt` when
non-negative, `negInt` otherwise). -/
def signedNum (halfRange u : Nat) : JNum :=
  if u < halfRange then .posInt u else .negInt ((u : Int) - 2 * halfRange)

/-- Inline short-string read: u8 length then that many bytes. -/
def readInlineStr (bs : List Nat) : Option (JValue × List Nat) := do
  let (sz, bs) ← takeByte bs
  let (w, bs) ← takeN sz bs
  some (.str w, bs)

/-- `decode_object` loop body for one entry's key: a nonzero
field-id-width mask (bits 7:6) selects a u8/u16/u32 dictionary id whose
miss is an error; otherwise the byte must be an inline short-string tag
(code 20). -/
def decodeKey (fd : Dict) (bs : List Nat) : Option (List Nat × List Nat) := do
  let (nb, bs) ← takeByte bs
  if nb / 64 % 4 ≠ 0 then
    let (id, bs) ←
      (if nb / 64 % 4 = 3 then readLE 4 bs
       else if nb / 64 % 4 = 2 then readLE 2 bs
       else readLE 1 bs)
    match fd.get id with
    | some k => some (k, bs)
    | none => none
  else if nb % 32 = 20 then do
    let (sz, bs) ← takeByte bs
    takeN sz bs
  else none

/-- Decode `n` consecutive object entries (the `decode_object` loop),
given a value decoder. -/
def decodeEntries (fd : Dict) (dec : List Nat → Option (JValue × List Nat)) :
    Nat → List Nat → Option (List (List Nat × JValue) × List Nat)
  | 0, bs => some ([], bs)
  | n + 1, bs => do
    let (k, bs) ← decodeKey fd bs
    let (v, bs) ← dec bs
    let (kvs, bs) ← decodeEntries fd dec n bs
    some ((k, v) :: kvs, bs)

/-- Decode `n` consecutive values (array loop). -/
def decodeSeq (dec : List Nat → Option (JValue × List Nat)) :
    Nat → List Nat → Option (List JValue × List Nat)
  | 0, bs => some ([], bs)
  | n + 1, bs => do
    let (v, bs) ← dec bs
    let (vs, bs) ← decodeSeq dec n bs
    some (v :: vs, bs)

/-- `decode`: read the tag byte, dispatch on its low 5 bits; bit 5 is
the value-dictionary flag (honored only by tag 20, where a dictionary
miss falls back to the inline form after consuming the u32 id); codes
27–30 are rejected. -/
def decodeF (fd vd : Dict) : Nat → List Nat → Option (JValue × List Nat)
  | 0, _ => none
  | fuel + 1, input => do
    let (nb, bs) ← takeByte input
    match nb % 32 with
    | 0 => some (.bool false, bs)
    | 1 => some (.bool true, bs)
    | 2 => do
      let (u, bs) ← readLE 1 bs
      some (.num (.posInt u), bs)
    | 3 => do
      let (u, bs) ← readLE 1 bs
      some (.num (signedNum 128 u), bs)
    | 4 => do
      let (u, bs) ← readLE 1 bs
      some (.str (48 :: 120 :: hexEncode [u]), bs)
    | 5 => do
      let (u, bs) ← readLE 2 bs
      some (.num (.posInt u), bs)
    | 6 => do
      let (u, bs) ← readLE 2 bs
      some (.num (signedNum 32768 u), bs)
    | 7 => do
      let (u, bs) ← readLE 4 bs
      some (.num (.posInt u), bs)
    | 8 => do
      let (u, bs) ← readLE 4 bs
      some (.num (signedNum 2147483648 u), bs)
    | 9 => do
      let (u, bs) ← readLE 8 bs
      some (.num (.posInt u), bs)
    | 10 => do
      let (u, bs) ← readLE 8 bs
      some (.num (signedNum 9223372036854775808 u), bs)
    | 11 => do
      let (u, bs) ← readLE 8 bs
      some (.str (48 :: 120 :: hexEncode (beBytes 8 u)), bs)
    | 12 => do
      let (u, bs) ← readLE 2 bs
      some (.str (48 :: 120 :: hexEncode (leBytes 2 u)), bs)
    | 13 => do
      let (u, bs) ← readLE 4 bs
      some (.str (48 :: 120 :: hexEncode (beBytes 4 u)), bs)
    | 14 => do
      let (u, bs) ← readLE 16 bs
      some (.str (48 :: 120 :: hexEncode (beBytes 16 u)), bs)
    | 15 => do
      let (lo, bs) ← readLE 4 bs
      let (hi, bs) ← readLE 16 bs
      some (.str (48 :: 120 :: (hexEncode (beBytes 16 hi) ++ hexEncode (beBytes 4 lo))), bs)
    | 16 => do
      let (lo, bs) ← readLE 16 bs
      let (hi, bs) ← readLE 16 bs
      some (.str (48 :: 120 :: (hexEncode (beBytes 16 hi) ++ hexEncode (beBytes 16 lo))), bs)
    | 17 => do
      let (u, bs) ← readLE 8 bs
      if isFiniteBits u then some (.num (.float u), bs) else none
    | 18 => some (.num (.posInt 0), bs)
    | 19 => do
      let (sz, bs) ← takeByte bs
      let (w, bs) ← takeN sz bs
      some (.str (48 :: 120 :: hexEncode w), bs)
    | 20 =>
      if nb / 32 % 2 = 1 then do
        let (id, bs) ← readLE 4 bs
        match vd.get id with
        | some buf => some (.str buf, bs)
        | none => readInlineStr bs
      else readInlineStr bs
    | 21 => do
      let (sz, bs) ← takeByte bs
      let (vs, bs) ← decodeSeq (fun b => decodeF fd vd fuel b) sz bs
      some (.arr vs, bs)
    | 22 => do
      let (sz, bs) ← takeByte bs
      let (kvs, bs) ← decodeEntries fd (fun b => decodeF fd vd fuel b) sz bs
      some (.obj (mkMap kvs), bs)
    | 23 => do
      let (sz, bs) ← readLE 2 bs
      let (w, bs) ← takeN sz bs
      some (.str (48 :: 120 :: hexEncode w), bs)
    | 24 => do
      let (sz, bs) ← readLE 2 bs
      let (w, bs) ← takeN sz bs
      some (.str w, bs)
    | 25 => do
      let (sz, bs) ← readLE 2 bs
      let (vs, bs) ← decodeSeq (fun b => decodeF fd vd fuel b) sz bs
      some (.arr vs, bs)
    | 26 => do
      let (sz, bs) ← readLE 2 bs
      let (kvs, bs) ← decodeEntries fd (fun b => decodeF fd vd fuel b) sz bs
      some (.obj (mkMap kvs), bs)
    | 31 => some (.null, bs)
    | _ => none

/-! ## Normalization (spec section 8, amended)

`normStr` renders a hex-string the way a decode of its encoding does:
hex digits lowercase, odd payloads gaining a leading zero nibble, and
payloads zero-padded to the width of the fixed-size tag they fall in
(1/2/4/8/16/20/32 bytes; larger blobs keep their own length). -/

/-- Wire width (in bytes) of the bucket a hex payload of `n` bytes is
written into by `encode_string`. -/
def hexWidth (n : Nat) : Nat :=
  if n = 1 then 1 else if n = 2 then 2 else if n ≤ 4 then 4
  else if n ≤ 8 then 8 else if n ≤ 16 then 16 else if n ≤ 20 then 20
  else if n ≤ 32 then 32 else n

/-- Normal form of a string value after one encode/decode round trip. -/
def normStr (s : List Nat) : List Nat :=
  if with0x s then
    match hexDecode (hexPad (s.drop 2)) with
    | some out =>
      48 :: 120 ::
        hexEncode (List.replicate (hexWidth out.length - out.length) 0 ++ out)
    | none => s
  else s

/-- Normal form of a JSON value after one encode/decode round trip:
hex-strings are re-rendered, everything else is unchanged. -/
def normalizeV : Nat → JValue → JValue
  | 0, v => v
  | _ + 1, .str s => .str (normStr s)
  | fuel + 1, .arr xs => .arr (xs.map (normalizeV fuel))
  | fuel + 1, .obj m => .obj (m.map fun kv => (kv.1, normalizeV fuel kv.2))
  | _ + 1, v => v

/-! ## Well-formedness: the domain on which the encoder is lossless -/

/-- Number representation invariants (`u64` / negative `i64` / finite
`f64`). -/
def wfNum : JNum → Bool
  | .posInt v => decide (v < 2 ^ 64)
  | .negInt v => decide (-(2 ^ 63) ≤ v ∧ v < 0)
  | .float bits => decide (bits < 2 ^ 64) && isFiniteBits bits

/-- String values the encoder round-trips: hex-strings must decode and
have a payload of at most 255 bytes (a 256-byte payload makes the
source panic, a longer one takes the broken DWB form); non-hex strings
must avoid the `len as u8` wraparound at exactly 256 and the `len as
u16` wraparound past 65535. -/
def wfStr (s : List Nat) : Bool :=
  if with0x s then
    match hexDecode (hexPad (s.drop 2)) with
    | some out => decide (out.length ≤ 255)
    | none => false
  else decide (s.length ≠ 256 ∧ s.length ≤ 65535)

/-- Object keys the codec round-trips: either a field-dictionary hit,
or an inline key that is not hex-shaped (hex keys are emitted with a
non-string tag the object decoder rejects), is not in the value
dictionary (the object decoder never reads a key dictionary id for an
inline tag), and fits the u8 length. -/
def wfKey (fd vd : Dict) (k : List Nat) : Bool :=
  match fd.find k with
  | some _ => true
  | none =>
    !with0x k && vd.find k == none && decide (k.length ≤ 255)

/-- Does `big_number` recognise this object (and so collapse it to a
byte blob)? -/
def bnCollapses (m : List (List Nat × JValue)) : Bool :=
  match bigNumber m with
  | .ok (some _) => true
  | _ => false

/-- Well-formed values: scalars in range, array/object sizes inside the
emitted forms, keys well-formed and distinct, and no object matching
the BigNumber shape (those collapse to a blob).  The fuel must cover
the tree depth; `wfV _ _ 0 _` is `false`. -/
def wfV (fd vd : Dict) : Nat → JValue → Bool
  | 0, _ => false
  | _ + 1, .null => true
  | _ + 1, .bool _ => true
  | _ + 1, .num n => wfNum n
  | _ + 1, .str s => wfStr s
  | fuel + 1, .arr xs =>
    decide (xs.length ≠ 256 ∧ xs.length ≤ 65535) &&
      xs.all fun x => wfV fd vd fuel x
  | fuel + 1, .obj m =>
    decide (m.length ≤ 255) && !bnCollapses m &&
      decide ((m.map Prod.fst).Nodup) &&
      m.all fun kv => wfKey fd vd kv.1 && wfV fd vd fuel kv.2

/-! ## MapDictionary (dictionary.rs) -/

/-- Insert into a `BTreeMap<u32, _>` modelled as a sorted association
list: replace an existing id, otherwise insert in order. -/
def sortedPut (m : List (Nat × List Nat)) (i : Nat) (s : List Nat) :
    List (Nat × List Nat) :=
  match m with
  | [] => [(i, s)]
  | (j, t) :: rest =>
    if i < j then (i, s) :: (j, t) :: rest
    else if i = j then (i, s) :: rest
    else (j, t) :: sortedPut rest i s

/-- Insert into a `BTreeMap<String, u32>` modelled as an association
list (iteration order of this map is never observed): replace or
append. -/
def assocPut (m : List (List Nat × Nat)) (s : List Nat) (i : Nat) :
    List (List Nat × Nat) :=
  match m with
  | [] => [(s, i)]
  | (t, j) :: rest =>
    if t = s then (t, i) :: rest else (t, j) :: assocPut rest s i

/-- Association-list lookup for the bytes-to-id map. -/
def assocGet (m : List (List Nat × Nat)) (s : List Nat) : Option Nat :=
  match m with
  | [] => none
  | (t, j) :: rest => if t = s then some j else assocGet rest s

/-- Association-list lookup for the id-to-bytes map. -/
def numGet (m : List (Nat × List Nat)) (i : Nat) : Option (List Nat) :=
  match m with
  | [] => none
  | (j, t) :: rest => if j = i then some t else numGet rest i

/-- `MapDictionary`: id-to-bytes (`v`, a `BTreeMap<u32, String>`, kept
sorted by id) and bytes-to-id (`k`). -/
structure MapDict where
  v : List (Nat × List Nat)
  k : List (List Nat × Nat)
  deriving DecidableEq

/-- `MapDictionary::new`. -/
def MapDict.empty : MapDict := ⟨[], []⟩

/-- `MapDictionary::insert_as`. -/
def MapDict.insertAs (d : MapDict) (item : List Nat) (index : Nat) : MapDict :=
  ⟨sortedPut d.v index item, assocPut d.k item index⟩

/-- `MapDictionary::insert`: fresh index `1 + v.len()`. -/
def MapDict.insert (d : MapDict) (item : List Nat) : MapDict :=
  d.insertAs item (1 + d.v.length)

/-- `DictionaryRead::get` for `MapDictionary`. -/
def MapDict.get (d : MapDict) (i : Nat) : Option (List Nat) :=
  numGet d.v i

/-- `DictionaryRead::find_str` for `MapDictionary`. -/
def MapDict.findStr (d : MapDict) (s : List Nat) : Option Nat :=
  assocGet d.k s

/-! ### Text form (write / from) -/

/-- Decimal digits, with fuel to keep the recursion structural (the
fuel is at least the digit count whenever `n < 10 ^ fuel`). -/
def decBytesAux : Nat → Nat → List Nat
  | 0, _ => []
  | f + 1, n =>
    if n < 10 then [48 + n] else decBytesAux f (n / 10) ++ [48 + n % 10]

/-- Decimal digits of `n` (`{}` formatting of the id). -/
def decBytes (n : Nat) : List Nat :=
  decBytesAux (n + 1) n

/-- Bytes on which Rust's `{:?}` string formatting is the identity
(printable ASCII other than quote and backslash). -/
def plainChar (b : Nat) : Bool :=
  32 ≤ b && b ≤ 126 && b ≠ 34 && b ≠ 92

/-- `MapDictionary::write`: one line per entry in ascending id order,
`<id>: "<value>"` followed by a newline.  Modelled fragment: on values
made of `plainChar` bytes, `{:?}` is quote, the bytes verbatim, quote;
values that would need Debug escaping are outside the model (`none`). -/
def writeDict (d : MapDict) : Option (List Nat) :=
  if d.v.all fun p => p.2.all plainChar then
    some (d.v.flatMap fun p => decBytes p.1 ++ [58, 32, 34] ++ p.2 ++ [34, 10])
  else none

/-- Split a byte stream at newline bytes (`BufRead::lines`; a trailing
empty piece corresponds to no yielded line, and is skipped by the
caller's blank-line check anyway). -/
def splitOnNl : List Nat → List (List Nat)
  | [] => [[]]
  | c :: cs =>
    match splitOnNl cs with
    | [] => [[c]]
    | l :: ls => if c = 10 then [] :: l :: ls else (c :: l) :: ls

/-- ASCII whitespace for `str::trim` (the dictionary files in scope are
ASCII). -/
def isWsB (b : Nat) : Bool :=
  b = 32 || b = 9 || b = 10 || b = 11 || b = 12 || b = 13

/-- `str::trim`. -/
def trimB (bs : List Nat) : List Nat :=
  ((bs.dropWhile isWsB).reverse.dropWhile isWsB).reverse

/-- `split_at_colon`: split at the first `':'`; `none` when there is no
colon (such a line is skipped). -/
def splitAtColon : List Nat → Option (List Nat × List Nat)
  | [] => none
  | c :: rest =>
    if c = 58 then some ([], rest)
    else (splitAtColon rest).map fun p => (c :: p.1, p.2)

/-- `str::parse::<u32>` on ASCII digits (no sign handling: the inputs
in scope never carry one). -/
def parseDecAux (acc : Nat) : List Nat → Option Nat
  | [] => some acc
  | c :: cs =>
    if 48 ≤ c ∧ c ≤ 57 then parseDecAux (acc * 10 + (c - 48)) cs else none

/-- `str::parse::<u32>`: nonempty digit string whose value fits u32. -/
def parseDec (bs : List Nat) : Option Nat :=
  match bs with
  | [] => none
  | _ =>
    (parseDecAux 0 bs).bind fun n =>
      if n < 4294967296 then some n else none

/-- One line of `MapDictionary::from`: trim, skip blanks and `#`
comments, split at the first colon, parse the id, and `insert_as` the
remainder of the line verbatim (it is NOT trimmed and its quotes are
NOT stripped). -/
def readLine (d : MapDict) (line : List Nat) : Option MapDict :=
  let ln := trimB line
  if ln.length > 0 && !(ln.head? == some 35) then
    match splitAtColon ln with
    | some (kpart, vpart) =>
      (parseDec kpart).map fun idx => d.insertAs vpart idx
    | none => some d
  else some d

/-- `MapDictionary::from`: fold `readLine` over the lines. -/
def readDict (bs : List Nat) : Option MapDict :=
  (splitOnNl bs).foldlM readLine MapDict.empty

/-! ## Spec-side characterisation of numeric tag selection (claim C2) -/

/-- The tag byte the amended claim predicts: every number representable
as `i64` (all negatives, and non-negatives up to `i64::MAX`) takes the
narrowest SIGNED tag; only values above `i64::MAX` take an unsigned
tag, and then always U64; floats take F64.  (This definition follows
the amended claim's words, to be compared against `encodeNumber`.) -/
def narrowTagSpec : JNum → Nat
  | .float _ => 17
  | .negInt v =>
    if v = 0 then 18
    else if -128 ≤ v then 3 else if -32768 ≤ v then 6
    else if -2147483648 ≤ v then 8 else 10
  | .posInt v =>
    if v = 0 then 18
    else if v ≤ 9223372036854775807 then
      if v ≤ 127 then 3 else if v ≤ 32767 then 6
      else if v ≤ 2147483647 then 8 else 10
    else 9

/-- Total on-wire size (tag plus payload) for each numeric tag. -/
def tagLenSpec (t : Nat) : Nat :=
  if t = 18 then 1 else if t = 3 then 2 else if t = 6 then 3
  else if t = 8 then 5 else 9


/-! ## Concrete values used by the claim theorems -/

/-- Does the `type` entry allow `big_number` to proceed to the `hex`
check?  True when `type` is absent, not a string, or the string
`"BigNumber"`. -/
def bnTypeOk : Option JValue → Bool
  | none => true
  | some (.str t) => t == sBytes "BigNumber"
  | some _ => true

/-- A sample JSON value for the round-trip witness. -/
def exVal : JValue :=
  .obj [(sBytes "k", .arr [.num (.posInt 300), .str (sBytes "0x1ff"),
          .bool true]),
        (sBytes "w", .null)]

/-- A one-entry dictionary `1 ↦ "alpha"`. -/
def exDictA : MapDict := MapDict.empty.insert (sBytes "alpha")

/-- A dictionary whose only entry sits at id 2 (built with `insert_as`),
so that the next fresh id `1 + len = 2` collides with it. -/
def exDictB : MapDict := MapDict.empty.insertAs (sBytes "a") 2

/-- A two-entry dictionary `a ↦ 1`, `b ↦ 2`. -/
def exDictC : MapDict :=
  (MapDict.empty.insert (sBytes "a")).insert (sBytes "b")

/-- An object of 256 single-byte keys (for the long-object claim). -/
def bigObj256 : List (List Nat × JValue) :=
  (List.range 256).map fun i => ([i], JValue.null)

/-- A two-entry object whose `type` is a number (not a string) and
whose `hex` is a hex-string. -/
def exBN : List (List Nat × JValue) :=
  [(sBytes "type", .num (.posInt 1)), (sBytes "hex", .str (sBytes "0x1ff"))]

/-! ## Primitive lemmas -/

theorem takeN_append (xs rest : List Nat) :
    takeN xs.length (xs ++ rest) = some (xs, rest) := by
  simp [takeN]

theorem leBytes_length (k v : Nat) : (leBytes k v).length = k := by
  induction k generalizing v with
  | zero => rfl
  | succ k ih => simp [leBytes, ih]

theorem leBytes_lt (k v : Nat) : ∀ b ∈ leBytes k v, b < 256 := by
  induction k generalizing v with
  | zero => simp [leBytes]
  | succ k ih =>
    intro b hb
    simp only [leBytes, List.mem_cons] at hb
    rcases hb with h | h
    · omega
    · exact ih _ b h

theorem leVal_leBytes (k v : Nat) (h : v < 256 ^ k) :
    leVal (leBytes k v) = v := by
  induction k generalizing v with
  | zero => simp [pow_zero, Nat.lt_one_iff] at h; simp [leBytes, leVal, h]
  | succ k ih =>
    have hdiv : v / 256 < 256 ^ k := by
      rw [Nat.div_lt_iff_lt_mul (by norm_num)]
      calc v < 256 ^ (k + 1) := h
        _ = 256 ^ k * 256 := by ring
    simp [leBytes, leVal, ih _ hdiv, Nat.mod_add_div']
    omega

theorem leBytes_leVal (w : List Nat) (h : ∀ b ∈ w, b < 256) :
    leBytes w.length (leVal w) = w := by
  induction w with
  | nil => rfl
  | cons b bs ih =>
    have hb : b < 256 := h b (by simp)
    have hrest : ∀ x ∈ bs, x < 256 := fun x hx => h x (by simp [hx])
    simp only [List.length_cons, leBytes, leVal]
    have e1 : (b + 256 * leVal bs) % 256 = b := by omega
    have e2 : (b + 256 * leVal bs) / 256 = leVal bs := by omega
    rw [e1, e2, ih hrest]

theorem leVal_lt (w : List Nat) (h : ∀ b ∈ w, b < 256) :
    leVal w < 256 ^ w.length := by
  induction w with
  | nil => simp [leVal]
  | cons b bs ih =>
    have hb : b < 256 := h b (by simp)
    have := ih fun x hx => h x (by simp [hx])
    simp only [leVal, List.length_cons, pow_succ]
    omega

theorem readLE_spec (w rest : List Nat) (k : Nat) (hk : w.length = k) :
    readLE k (w ++ rest) = some (leVal w, rest) := by
  subst hk
  simp [readLE, takeN_append]

theorem readLE_leBytes (k v : Nat) (rest : List Nat) (h : v < 256 ^ k) :
    readLE k (leBytes k v ++ rest) = some (v, rest) := by
  rw [readLE_spec _ _ _ (leBytes_length k v), leVal_leBytes k v h]

theorem beBytes_leVal (w : List Nat) (k : Nat) (hk : w.length = k)
    (h : ∀ b ∈ w, b < 256) : beBytes k (leVal w) = w.reverse := by
  subst hk
  rw [beBytes, leBytes_leVal w h]

/-! ## Hex lemmas -/

theorem hexVal_lt (c v : Nat) (h : hexVal c = some v) : v < 16 := by
  unfold hexVal at h
  split at h
  · injection h with h; omega
  · split at h
    · injection h with h; omega
    · split at h
      · injection h with h; omega
      · cases h

theorem hexDecode_lt (cs out : List Nat) (h : hexDecode cs = some out) :
    ∀ b ∈ out, b < 256 := by
  induction cs using hexDecode.induct generalizing out with
  | case1 =>
    unfold hexDecode at h
    injection h with h
    subst h
    simp
  | case2 c =>
    unfold hexDecode at h
    cases h
  | case3 c1 c2 cs ih =>
    simp only [hexDecode, Option.bind_eq_bind, Option.bind_eq_some] at h
    obtain ⟨v1, hv1, v2, hv2, r, hr, hout⟩ := h
    have h1 : v1 < 16 := hexVal_lt _ _ hv1
    have h2 : v2 < 16 := hexVal_lt _ _ hv2
    injection hout with hout
    subst hout
    intro b hb
    simp only [List.mem_cons] at hb
    rcases hb with h | h
    · omega
    · exact ih _ hr b h

theorem hexDecode_length (cs out : List Nat) (h : hexDecode cs = some out) :
    2 * out.length = cs.length := by
  induction cs using hexDecode.induct generalizing out with
  | case1 =>
    unfold hexDecode at h
    injection h with h
    subst h
    rfl
  | case2 c =>
    unfold hexDecode at h
    cases h
  | case3 c1 c2 cs ih =>
    simp only [hexDecode, Option.bind_eq_bind, Option.bind_eq_some] at h
    obtain ⟨v1, _, v2, _, r, hr, hout⟩ := h
    have := ih _ hr
    injection hout with hout
    subst hout
    simp only [List.length_cons]
    omega

theorem hexEncode_append (a b : List Nat) :
    hexEncode (a ++ b) = hexEncode a ++ hexEncode b := by
  simp [hexEncode]

/-! ## Signed reinterpretation -/

theorem signed_roundtrip (H : Nat) (hH : 0 < H) (v : Int)
    (h1 : -(H : Int) ≤ v) (h2 : v < H) :
    (v % (2 * H)).toNat < 2 * H ∧
      signedNum H (v % (2 * H)).toNat =
        (if 0 ≤ v then JNum.posInt v.toNat else JNum.negInt v) := by
  have h2H : (0 : Int) < 2 * H := by positivity
  rcases le_or_lt 0 v with hv | hv
  · have hmod : v % (2 * H) = v := Int.emod_eq_of_lt hv (by omega)
    rw [hmod]
    refine ⟨by omega, ?_⟩
    rw [if_pos hv, signedNum, if_pos (by omega)]
  · have hmod : v % (2 * H) = v + 2 * H := by
      have : (v + 2 * H * 1) % (2 * H) = v % (2 * H) :=
        Int.add_mul_emod_self_left v (2 * H) 1
      rw [mul_one] at this
      rw [← this, Int.emod_eq_of_lt (by omega) (by omega)]
    have hnn : (0 : Int) ≤ v + 2 * H := by omega
    have htn : ((v + 2 * (H : Int)).toNat : Int) = v + 2 * H :=
      Int.toNat_of_nonneg hnn
    rw [hmod]
    refine ⟨by omega, ?_⟩
    rw [if_neg (by omega), signedNum, if_neg (by omega)]
    congr 1
    rw [htn]
    ring

/-! ## Decoder evaluation lemmas, one per scalar tag -/

theorem decode_tag18 (fd vd : Dict) (fuel : Nat) (rest : List Nat) :
    decodeF fd vd (fuel + 1) (18 :: rest) = some (.num (.posInt 0), rest) := by
  simp [decodeF, takeByte]

theorem decode_tag31 (fd vd : Dict) (fuel : Nat) (rest : List Nat) :
    decodeF fd vd (fuel + 1) (31 :: rest) = some (.null, rest) := by
  simp [decodeF, takeByte]

theorem decode_tag0 (fd vd : Dict) (fuel : Nat) (rest : List Nat) :
    decodeF fd vd (fuel + 1) (0 :: rest) = some (.bool false, rest) := by
  simp [decodeF, takeByte]

theorem decode_tag1 (fd vd : Dict) (fuel : Nat) (rest : List Nat) :
    decodeF fd vd (fuel + 1) (1 :: rest) = some (.bool true, rest) := by
  simp [decodeF, takeByte]

theorem decode_tag2 (fd vd : Dict) (fuel m : Nat) (rest : List Nat)
    (hm : m < 256 ^ 1) :
    decodeF fd vd (fuel + 1) (2 :: (leBytes 1 m ++ rest)) =
      some (.num (.posInt m), rest) := by
  simp only [decodeF, takeByte, Option.bind_eq_bind, Option.some_bind]
  rw [readLE_leBytes 1 m rest hm]
  rfl

theorem decode_tag5 (fd vd : Dict) (fuel m : Nat) (rest : List Nat)
    (hm : m < 256 ^ 2) :
    decodeF fd vd (fuel + 1) (5 :: (leBytes 2 m ++ rest)) =
      some (.num (.posInt m), rest) := by
  simp only [decodeF, takeByte, Option.bind_eq_bind, Option.some_bind]
  rw [readLE_leBytes 2 m rest hm]
  rfl

theorem decode_tag7 (fd vd : Dict) (fuel m : Nat) (rest : List Nat)
    (hm : m < 256 ^ 4) :
    decodeF fd vd (fuel + 1) (7 :: (leBytes 4 m ++ rest)) =
      some (.num (.posInt m), rest) := by
  simp only [decodeF, takeByte, Option.bind_eq_bind, Option.some_bind]
  rw [readLE_leBytes 4 m rest hm]
  rfl

theorem decode_tag9 (fd vd : Dict) (fuel m : Nat) (rest : List Nat)
    (hm : m < 256 ^ 8) :
    decodeF fd vd (fuel + 1) (9 :: (leBytes 8 m ++ rest)) =
      some (.num (.posInt m), rest) := by
  simp only [decodeF, takeByte, Option.bind_eq_bind, Option.some_bind]
  rw [readLE_leBytes 8 m rest hm]
  rfl

theorem decode_tag3 (fd vd : Dict) (fuel m : Nat) (rest : List Nat)
    (hm : m < 256 ^ 1) :
    decodeF fd vd (fuel + 1) (3 :: (leBytes 1 m ++ rest)) =
      some (.num (signedNum 128 m), rest) := by
  simp only [decodeF, takeByte, Option.bind_eq_bind, Option.some_bind]
  rw [readLE_leBytes 1 m rest hm]
  rfl

theorem decode_tag6 (fd vd : Dict) (fuel m : Nat) (rest : List Nat)
    (hm : m < 256 ^ 2) :
    decodeF fd vd (fuel + 1) (6 :: (leBytes 2 m ++ rest)) =
      some (.num (signedNum 32768 m), rest) := by
  simp only [decodeF, takeByte, Option.bind_eq_bind, Option.some_bind]
  rw [readLE_leBytes 2 m rest hm]
  rfl

theorem decode_tag8 (fd vd : Dict) (fuel m : Nat) (rest : List Nat)
    (hm : m < 256 ^ 4) :
    decodeF fd vd (fuel + 1) (8 :: (leBytes 4 m ++ rest)) =
      some (.num (signedNum 2147483648 m), rest) := by
  simp only [decodeF, takeByte, Option.bind_eq_bind, Option.some_bind]
  rw [readLE_leBytes 4 m rest hm]
  rfl

theorem decode_tag10 (fd vd : Dict) (fuel m : Nat) (rest : List Nat)
    (hm : m < 256 ^ 8) :
    decodeF fd vd (fuel + 1) (10 :: (leBytes 8 m ++ rest)) =
      some (.num (signedNum 9223372036854775808 m), rest) := by
  simp only [decodeF, takeByte, Option.bind_eq_bind, Option.some_bind]
  rw [readLE_leBytes 8 m rest hm]
  rfl

theorem decode_tag17 (fd vd : Dict) (fuel m : Nat) (rest : List Nat)
    (hm : m < 256 ^ 8) (hfin : isFiniteBits m = true) :
    decodeF fd vd (fuel + 1) (17 :: (leBytes 8 m ++ rest)) =
      some (.num (.float m), rest) := by
  simp only [decodeF, takeByte, Option.bind_eq_bind, Option.some_bind]
  rw [readLE_leBytes 8 m rest hm]
  simp [hfin]

/-! ## Number round trip -/

theorem encI_decode (v : Int) (h1 : -(2 ^ 63 : Int) ≤ v) (h2 : v < 2 ^ 63)
    (fd vd : Dict) (fuel : Nat) (rest : List Nat) :
    decodeF fd vd (fuel + 1) (encI v ++ rest) =
      some (.num (if 0 ≤ v then .posInt v.toNat else .negInt v), rest) := by
  rcases eq_or_ne v 0 with rfl | hv0
  · rw [encI, if_pos rfl]
    simpa using decode_tag18 fd vd fuel rest
  by_cases hA : -128 ≤ v ∧ v ≤ 127
  · obtain ⟨hlt, hsig⟩ := signed_roundtrip 128 (by norm_num) v (by omega) (by omega)
    norm_num at hlt hsig
    rw [encI, if_neg hv0, if_pos hA, List.cons_append,
      decode_tag3 fd vd fuel _ rest (by norm_num; omega), hsig]
  by_cases hB : -32768 ≤ v ∧ v ≤ 32767
  · obtain ⟨hlt, hsig⟩ := signed_roundtrip 32768 (by norm_num) v (by omega) (by omega)
    norm_num at hlt hsig
    rw [encI, if_neg hv0, if_neg hA, if_pos hB, List.cons_append,
      decode_tag6 fd vd fuel _ rest (by norm_num; omega), hsig]
  by_cases hC : -2147483648 ≤ v ∧ v ≤ 2147483647
  · obtain ⟨hlt, hsig⟩ :=
      signed_roundtrip 2147483648 (by norm_num) v (by omega) (by omega)
    norm_num at hlt hsig
    rw [encI, if_neg hv0, if_neg hA, if_neg hB, if_pos hC, List.cons_append,
      decode_tag8 fd vd fuel _ rest (by norm_num; omega), hsig]
  · obtain ⟨hlt, hsig⟩ :=
      signed_roundtrip 9223372036854775808 (by norm_num) v (by omega) (by omega)
    norm_num at hlt hsig
    rw [encI, if_neg hv0, if_neg hA, if_neg hB, if_neg hC, List.cons_append,
      decode_tag10 fd vd fuel _ rest (by norm_num; omega), hsig]

theorem encodeNumber_decode (n : JNum) (hn : wfNum n = true)
    (fd vd : Dict) (fuel : Nat) (rest : List Nat) :
    ∃ bs, encodeNumber n = some bs ∧
      decodeF fd vd (fuel + 1) (bs ++ rest) = some (.num n, rest) := by
  match n with
  | .posInt v =>
    simp only [wfNum, decide_eq_true_eq] at hn
    by_cases hi : v ≤ 9223372036854775807
    · refine ⟨encI v, by rw [encodeNumber, if_pos hi], ?_⟩
      rw [encI_decode v (by omega) (by push_cast; omega) fd vd fuel rest,
        if_pos (by positivity)]
      simp
    · refine ⟨encU v, by rw [encodeNumber, if_neg hi], ?_⟩
      rw [encU, if_neg (by omega), if_neg (by omega), if_neg (by omega),
        if_neg (by omega), List.cons_append,
        decode_tag9 fd vd fuel v rest (by norm_num; omega)]
  | .negInt v =>
    simp only [wfNum, decide_eq_true_eq] at hn
    refine ⟨encI v, rfl, ?_⟩
    rw [encI_decode v (by omega) (by omega) fd vd fuel rest, if_neg (by omega)]
  | .float bits =>
    simp only [wfNum, Bool.and_eq_true, decide_eq_true_eq] at hn
    refine ⟨17 :: leBytes 8 bits, rfl, ?_⟩
    rw [List.cons_append,
      decode_tag17 fd vd fuel bits rest (by norm_num; omega) hn.2]

/-! ## Decoder evaluation lemmas for the string/hex tags -/

theorem decode_tag4 (fd vd : Dict) (fuel : Nat) (out rest : List Nat)
    (h : out.length = 1) :
    decodeF fd vd (fuel + 1) (4 :: (out ++ rest)) =
      some (.str (48 :: 120 :: hexEncode out), rest) := by
  match out, h with
  | [o], _ =>
    simp only [decodeF, takeByte, Option.bind_eq_bind, Option.some_bind]
    rw [readLE_spec [o] rest 1 rfl]
    simp [leVal]

theorem decode_tag12 (fd vd : Dict) (fuel : Nat) (out rest : List Nat)
    (h : out.length = 2) (hlt : ∀ b ∈ out, b < 256) :
    decodeF fd vd (fuel + 1) (12 :: (out ++ rest)) =
      some (.str (48 :: 120 :: hexEncode out), rest) := by
  simp only [decodeF, takeByte, Option.bind_eq_bind, Option.some_bind]
  rw [readLE_spec out rest 2 h]
  simp only [Option.some_bind]
  have := leBytes_leVal out hlt
  rw [h] at this
  rw [this]

theorem decode_tag13 (fd vd : Dict) (fuel : Nat) (out rest : List Nat)
    (h : out.length = 4) (hlt : ∀ b ∈ out, b < 256) :
    decodeF fd vd (fuel + 1) (13 :: (out ++ rest)) =
      some (.str (48 :: 120 :: hexEncode out.reverse), rest) := by
  simp only [decodeF, takeByte, Option.bind_eq_bind, Option.some_bind]
  rw [readLE_spec out rest 4 h]
  simp only [Option.some_bind]
  rw [beBytes_leVal out 4 h hlt]

theorem decode_tag11 (fd vd : Dict) (fuel : Nat) (out rest : List Nat)
    (h : out.length = 8) (hlt : ∀ b ∈ out, b < 256) :
    decodeF fd vd (fuel + 1) (11 :: (out ++ rest)) =
      some (.str (48 :: 120 :: hexEncode out.reverse), rest) := by
  simp only [decodeF, takeByte, Option.bind_eq_bind, Option.some_bind]
  rw [readLE_spec out rest 8 h]
  simp only [Option.some_bind]
  rw [beBytes_leVal out 8 h hlt]

theorem decode_tag14 (fd vd : Dict) (fuel : Nat) (out rest : List Nat)
    (h : out.length = 16) (hlt : ∀ b ∈ out, b < 256) :
    decodeF fd vd (fuel + 1) (14 :: (out ++ rest)) =
      some (.str (48 :: 120 :: hexEncode out.reverse), rest) := by
  simp only [decodeF, takeByte, Option.bind_eq_bind, Option.some_bind]
  rw [readLE_spec out rest 16 h]
  simp only [Option.some_bind]
  rw [beBytes_leVal out 16 h hlt]

theorem take_drop_readLE (k : Nat) (w rest : List Nat) (hk : k ≤ w.length) :
    readLE k (w ++ rest) = some (leVal (w.take k), w.drop k ++ rest) := by
  have hsplit : w ++ rest = w.take k ++ (w.drop k ++ rest) := by
    rw [← List.append_assoc, List.take_append_drop]
  rw [hsplit, readLE_spec (w.take k) (w.drop k ++ rest) k
    (by rw [List.length_take]; omega)]

theorem decode_tag15 (fd vd : Dict) (fuel : Nat) (out rest : List Nat)
    (h : out.length = 20) (hlt : ∀ b ∈ out, b < 256) :
    decodeF fd vd (fuel + 1) (15 :: (out ++ rest)) =
      some (.str (48 :: 120 :: hexEncode out.reverse), rest) := by
  simp only [decodeF, takeByte, Option.bind_eq_bind, Option.some_bind]
  rw [take_drop_readLE 4 out rest (by omega)]
  simp only [Option.some_bind]
  rw [readLE_spec (out.drop 4) rest 16 (by rw [List.length_drop]; omega)]
  simp only [Option.some_bind]
  rw [beBytes_leVal (out.take 4) 4 (by rw [List.length_take]; omega)
      (fun b hb => hlt b (List.mem_of_mem_take hb)),
    beBytes_leVal (out.drop 4) 16 (by rw [List.length_drop]; omega)
      (fun b hb => hlt b (List.mem_of_mem_drop hb))]
  have : out.reverse = (out.drop 4).reverse ++ (out.take 4).reverse := by
    rw [← List.reverse_append, List.take_append_drop]
  rw [this, hexEncode_append]

theorem decode_tag16 (fd vd : Dict) (fuel : Nat) (out rest : List Nat)
    (h : out.length = 32) (hlt : ∀ b ∈ out, b < 256) :
    decodeF fd vd (fuel + 1) (16 :: (out ++ rest)) =
      some (.str (48 :: 120 :: hexEncode out.reverse), rest) := by
  simp only [decodeF, takeByte, Option.bind_eq_bind, Option.some_bind]
  rw [take_drop_readLE 16 out rest (by omega)]
  simp only [Option.some_bind]
  rw [readLE_spec (out.drop 16) rest 16 (by rw [List.length_drop]; omega)]
  simp only [Option.some_bind]
  rw [beBytes_leVal (out.take 16) 16 (by rw [List.length_take]; omega)
      (fun b hb => hlt b (List.mem_of_mem_take hb)),
    beBytes_leVal (out.drop 16) 16 (by rw [List.length_drop]; omega)
      (fun b hb => hlt b (List.mem_of_mem_drop hb))]
  have : out.reverse = (out.drop 16).reverse ++ (out.take 16).reverse := by
    rw [← List.reverse_append, List.take_append_drop]
  rw [this, hexEncode_append]

theorem decode_tag19 (fd vd : Dict) (fuel : Nat) (w rest : List Nat) :
    decodeF fd vd (fuel + 1) (19 :: w.length :: (w ++ rest)) =
      some (.str (48 :: 120 :: hexEncode w), rest) := by
  simp only [decodeF, takeByte, Option.bind_eq_bind, Option.some_bind]
  rw [takeN_append]
  rfl

theorem decode_tag24 (fd vd : Dict) (fuel : Nat) (w rest : List Nat)
    (h : w.length < 65536) :
    decodeF fd vd (fuel + 1) (24 :: (leBytes 2 w.length ++ (w ++ rest))) =
      some (.str w, rest) := by
  simp only [decodeF, takeByte, Option.bind_eq_bind, Option.some_bind]
  rw [show (65536 : Nat) = 256 ^ 2 by norm_num] at h
  rw [readLE_leBytes 2 w.length (w ++ rest) h]
  simp only [Option.some_bind]
  rw [takeN_append]
  rfl

theorem decode_tag20_inline (fd vd : Dict) (fuel : Nat) (w rest : List Nat) :
    decodeF fd vd (fuel + 1) (20 :: w.length :: (w ++ rest)) =
      some (.str w, rest) := by
  simp [decodeF, takeByte, readInlineStr, takeN_append]

theorem decode_tag52_hit (fd vd : Dict) (fuel id : Nat) (s rest : List Nat)
    (hid : id < 4294967296) (hget : vd.get id = some s) :
    decodeF fd vd (fuel + 1) (52 :: (leBytes 4 id ++ rest)) =
      some (.str s, rest) := by
  simp only [decodeF, takeByte, Option.bind_eq_bind, Option.some_bind,
    if_true]
  rw [show (4294967296 : Nat) = 256 ^ 4 by norm_num] at hid
  rw [readLE_leBytes 4 id rest hid]
  simp [hget]

theorem decode_tag52_miss (fd vd : Dict) (fuel id : Nat) (w rest : List Nat)
    (hid : id < 4294967296) (hget : vd.get id = none) :
    decodeF fd vd (fuel + 1)
        (52 :: (leBytes 4 id ++ (w.length :: (w ++ rest)))) =
      some (.str w, rest) := by
  simp only [decodeF, takeByte, Option.bind_eq_bind, Option.some_bind,
    if_true]
  rw [show (4294967296 : Nat) = 256 ^ 4 by norm_num] at hid
  rw [readLE_leBytes 4 id (w.length :: (w ++ rest)) hid]
  simp [hget, readInlineStr, takeByte, takeN_append]

/-! ## String round trip -/

theorem bWide_spec (tag width : Nat) (out : List Nat) (hw : out.length ≤ width) :
    bWide tag width out =
      some (tag :: (out.reverse ++ List.replicate (width - out.length) 0)) := by
  rw [bWide, if_pos hw]

theorem wide_wire_reverse (out : List Nat) (width : Nat) :
    (out.reverse ++ List.replicate (width - out.length) 0).reverse =
      List.replicate (width - out.length) 0 ++ out := by
  rw [List.reverse_append, List.reverse_replicate, List.reverse_reverse]

theorem wide_wire_length (out : List Nat) (width : Nat)
    (hw : out.length ≤ width) :
    (out.reverse ++ List.replicate (width - out.length) 0).length = width := by
  simp only [List.length_append, List.length_reverse, List.length_replicate]
  omega

theorem wide_wire_lt (out : List Nat) (width : Nat)
    (hlt : ∀ b ∈ out, b < 256) :
    ∀ b ∈ out.reverse ++ List.replicate (width - out.length) 0, b < 256 := by
  intro b hb
  simp only [List.mem_append, List.mem_reverse, List.mem_replicate] at hb
  rcases hb with h | h
  · exact hlt b h
  · omega

theorem with0x_length (s : List Nat) (h : with0x s = true) : 3 ≤ s.length := by
  match s, h with
  | 48 :: 120 :: c :: r, _ => simp only [List.length_cons]; omega

theorem encodeString_decode (vd : Dict) (hvd : DictOK vd) (s : List Nat)
    (hs : wfStr s = true) (fd : Dict) (fuel : Nat) (rest : List Nat) :
    ∃ bs, encodeString vd s = some bs ∧
      decodeF fd vd (fuel + 1) (bs ++ rest) = some (.str (normStr s), rest) := by
  by_cases hx : with0x s = true
  · -- hex-string path
    rw [wfStr, if_pos hx] at hs
    rcases hdec : hexDecode (hexPad (s.drop 2)) with _ | out
    · rw [hdec] at hs; cases hs
    rw [hdec] at hs
    simp only [decide_eq_true_eq] at hs
    have hlt : ∀ b ∈ out, b < 256 := hexDecode_lt _ _ hdec
    have hlen1 : 1 ≤ out.length := by
      have h2l := hexDecode_length _ _ hdec
      have h3 : 3 ≤ s.length := with0x_length s hx
      have hd2 : 1 ≤ (s.drop 2).length := by
        rw [List.length_drop]; omega
      have hp : 1 ≤ (hexPad (s.drop 2)).length := by
        rw [hexPad]
        split
        · omega
        · simp only [List.length_cons]; omega
      omega
    have hbn : out.length % 256 = out.length := Nat.mod_eq_of_lt (by omega)
    rw [normStr, if_pos hx, hdec]
    simp only [encodeString, if_pos hx, hdec, if_neg (by omega : ¬256 < out.length), hbn]
    by_cases h1 : out.length = 1
    · simp only [if_pos h1]
      refine ⟨_, rfl, ?_⟩
      rw [List.cons_append, decode_tag4 fd vd fuel out rest h1]
      have hw : hexWidth out.length = 1 := by rw [h1]; rfl
      rw [hw, h1]
      simp
    simp only [if_neg h1]
    by_cases h2 : out.length = 2
    · simp only [if_pos h2]
      match out, h2 with
      | [o0, o1], _ =>
        have ho0 : o0 < 256 := hlt o0 (by simp)
        have ho1 : o1 < 256 := hlt o1 (by simp)
        refine ⟨_, rfl, ?_⟩
        have hle : leBytes 2 ([o0, o1].getD 0 0 + 256 * [o0, o1].getD 1 0) =
            [o0, o1] := by
          show leBytes 2 (o0 + 256 * o1) = [o0, o1]
          have e1 : (o0 + 256 * o1) % 256 = o0 := by omega
          have e2 : (o0 + 256 * o1) / 256 % 256 = o1 := by omega
          simp only [leBytes, e1, e2]
        rw [List.cons_append, hle,
          decode_tag12 fd vd fuel [o0, o1] rest rfl hlt]
        have hw : hexWidth ([o0, o1] : List Nat).length = 2 := rfl
        rw [hw]
        simp
    simp only [if_neg h2]
    by_cases h4 : out.length ≤ 4
    · simp only [if_pos h4]
      rw [bWide_spec 13 4 out h4]
      refine ⟨_, rfl, ?_⟩
      rw [List.cons_append,
        decode_tag13 fd vd fuel _ rest (wide_wire_length out 4 h4)
          (wide_wire_lt out 4 hlt),
        wide_wire_reverse out 4]
      have hw : hexWidth out.length = 4 := by
        unfold hexWidth; split_ifs <;> omega
      rw [hw]
    simp only [if_neg h4]
    by_cases h8 : out.length ≤ 8
    · simp only [if_pos h8]
      rw [bWide_spec 11 8 out h8]
      refine ⟨_, rfl, ?_⟩
      rw [List.cons_append,
        decode_tag11 fd vd fuel _ rest (wide_wire_length out 8 h8)
          (wide_wire_lt out 8 hlt),
        wide_wire_reverse out 8]
      have hw : hexWidth out.length = 8 := by
        unfold hexWidth; split_ifs <;> omega
      rw [hw]
    simp only [if_neg h8]
    by_cases h16 : out.length ≤ 16
    · simp only [if_pos h16]
      rw [bWide_spec 14 16 out h16]
      refine ⟨_, rfl, ?_⟩
      rw [List.cons_append,
        decode_tag14 fd vd fuel _ rest (wide_wire_length out 16 h16)
          (wide_wire_lt out 16 hlt),
        wide_wire_reverse out 16]
      have hw : hexWidth out.length = 16 := by
        unfold hexWidth; split_ifs <;> omega
      rw [hw]
    simp only [if_neg h16]
    by_cases h20 : out.length ≤ 20
    · simp only [if_pos h20]
      rw [bWide_spec 15 20 out h20]
      refine ⟨_, rfl, ?_⟩
      rw [List.cons_append,
        decode_tag15 fd vd fuel _ rest (wide_wire_length out 20 h20)
          (wide_wire_lt out 20 hlt),
        wide_wire_reverse out 20]
      have hw : hexWidth out.length = 20 := by
        unfold hexWidth; split_ifs <;> omega
      rw [hw]
    simp only [if_neg h20]
    by_cases h32 : out.length ≤ 32
    · simp only [if_pos h32]
      rw [bWide_spec 16 32 out h32]
      refine ⟨_, rfl, ?_⟩
      rw [List.cons_append,
        decode_tag16 fd vd fuel _ rest (wide_wire_length out 32 h32)
          (wide_wire_lt out 32 hlt),
        wide_wire_reverse out 32]
      have hw : hexWidth out.length = 32 := by
        unfold hexWidth; split_ifs <;> omega
      rw [hw]
    · simp only [if_neg h32]
      refine ⟨_, rfl, ?_⟩
      rw [List.cons_append, List.cons_append,
        decode_tag19 fd vd fuel out rest]
      have hw : hexWidth out.length = out.length := by
        unfold hexWidth; split_ifs <;> omega
      rw [hw]
      simp
  · -- non-hex path
    rw [wfStr, if_neg hx] at hs
    simp only [decide_eq_true_eq] at hs
    rw [normStr, if_neg hx]
    by_cases hlong : 256 < s.length
    · simp only [encodeString, if_neg hx, if_pos hlong]
      have hmod : s.length % 65536 = s.length := Nat.mod_eq_of_lt (by omega)
      rw [hmod]
      refine ⟨_, rfl, ?_⟩
      simp only [List.cons_append, List.append_assoc]
      rw [decode_tag24 fd vd fuel s rest (by omega)]
    · simp only [encodeString, if_neg hx, if_neg hlong]
      rcases hfind : vd.find s with _ | id
      · simp only [hfind]
        have hmod : s.length % 256 = s.length := Nat.mod_eq_of_lt (by omega)
        rw [hmod]
        refine ⟨_, rfl, ?_⟩
        rw [List.cons_append, List.cons_append,
          decode_tag20_inline fd vd fuel s rest]
      · simp only [hfind]
        obtain ⟨hid, hget⟩ := hvd s id hfind
        refine ⟨_, rfl, ?_⟩
        rw [List.cons_append, decode_tag52_hit fd vd fuel id s rest hid hget]

/-! ## Object keys -/

theorem readLE_one (b : Nat) (rest : List Nat) :
    readLE 1 (b :: rest) = some (b, rest) := by
  have : b :: rest = [b] ++ rest := rfl
  rw [this, readLE_spec [b] rest 1 rfl]
  simp [leVal]

theorem decodeKey_fd_u8 (fd : Dict) (id : Nat) (k rest : List Nat)
    (hid : id < 256) (hget : fd.get id = some k) :
    decodeKey fd (66 :: id :: rest) = some (k, rest) := by
  simp only [decodeKey, takeByte, Option.bind_eq_bind, Option.some_bind]
  rw [readLE_one id rest]
  simp [hget]

theorem decodeKey_fd_u16 (fd : Dict) (id : Nat) (k rest : List Nat)
    (hid : id < 65536) (hget : fd.get id = some k) :
    decodeKey fd (133 :: (leBytes 2 id ++ rest)) = some (k, rest) := by
  simp only [decodeKey, takeByte, Option.bind_eq_bind, Option.some_bind]
  rw [show (65536 : Nat) = 256 ^ 2 by norm_num] at hid
  rw [readLE_leBytes 2 id rest hid]
  simp [hget]

theorem decodeKey_fd_u32 (fd : Dict) (id : Nat) (k rest : List Nat)
    (hid : id < 4294967296) (hget : fd.get id = some k) :
    decodeKey fd (199 :: (leBytes 4 id ++ rest)) = some (k, rest) := by
  simp only [decodeKey, takeByte, Option.bind_eq_bind, Option.some_bind]
  rw [show (4294967296 : Nat) = 256 ^ 4 by norm_num] at hid
  rw [readLE_leBytes 4 id rest hid]
  simp [hget]

theorem decodeKey_inline (fd : Dict) (k rest : List Nat) :
    decodeKey fd (20 :: k.length :: (k ++ rest)) = some (k, rest) := by
  simp [decodeKey, takeByte, takeN_append]

theorem encodeKeyBytes_decode (fd vd : Dict) (hfd : DictOK fd)
    (k : List Nat) (hk : wfKey fd vd k = true) :
    ∃ kb, encodeKeyBytes fd vd k = some kb ∧
      ∀ rest, decodeKey fd (kb ++ rest) = some (k, rest) := by
  rcases hfind : fd.find k with _ | id
  · rw [wfKey, hfind] at hk
    simp only [Bool.and_eq_true, Bool.not_eq_true', beq_iff_eq,
      decide_eq_true_eq] at hk
    obtain ⟨⟨hhex, hvd⟩, hlen⟩ := hk
    rw [encodeKeyBytes, hfind, encodeString, if_neg (by rw [hhex]; simp),
      if_neg (by omega), hvd]
    have hmod : k.length % 256 = k.length := Nat.mod_eq_of_lt (by omega)
    rw [hmod]
    exact ⟨_, rfl, fun rest => by
      rw [List.cons_append, List.cons_append, decodeKey_inline fd k rest]⟩
  · obtain ⟨hid, hget⟩ := hfd k id hfind
    simp only [encodeKeyBytes, hfind]
    by_cases h32 : 65535 < id
    · rw [if_pos h32]
      exact ⟨_, rfl, fun rest => by
        rw [List.cons_append, decodeKey_fd_u32 fd id k rest hid hget]⟩
    rw [if_neg h32]
    by_cases h16 : 255 < id
    · rw [if_pos h16]
      exact ⟨_, rfl, fun rest => by
        rw [List.cons_append, decodeKey_fd_u16 fd id k rest (by omega) hget]⟩
    · rw [if_neg h16]
      have hmod : id % 256 = id := Nat.mod_eq_of_lt (by omega)
      rw [hmod]
      exact ⟨_, rfl, fun rest => by
        rw [show ([66, id] : List Nat) ++ rest = 66 :: id :: rest from rfl,
          decodeKey_fd_u8 fd id k rest (by omega) hget]⟩

/-! ## Container tag dispatch -/

theorem decode_tag21 (fd vd : Dict) (fuel sz : Nat) (bs : List Nat) :
    decodeF fd vd (fuel + 1) (21 :: sz :: bs) =
      (decodeSeq (fun b => decodeF fd vd fuel b) sz bs).bind
        fun p => some (.arr p.1, p.2) := by
  simp [decodeF, takeByte]

theorem decode_tag25 (fd vd : Dict) (fuel n : Nat) (bs : List Nat)
    (hn : n < 65536) :
    decodeF fd vd (fuel + 1) (25 :: (leBytes 2 n ++ bs)) =
      (decodeSeq (fun b => decodeF fd vd fuel b) n bs).bind
        fun p => some (.arr p.1, p.2) := by
  simp only [decodeF, takeByte, Option.bind_eq_bind, Option.some_bind]
  rw [show (65536 : Nat) = 256 ^ 2 by norm_num] at hn
  rw [readLE_leBytes 2 n bs hn]
  rfl

theorem decode_tag22 (fd vd : Dict) (fuel sz : Nat) (bs : List Nat) :
    decodeF fd vd (fuel + 1) (22 :: sz :: bs) =
      (decodeEntries fd (fun b => decodeF fd vd fuel b) sz bs).bind
        fun p => some (.obj (mkMap p.1), p.2) := by
  simp [decodeF, takeByte]

/-! ## Sequences and entries -/

theorem decodeSeq_succ (dec : List Nat → Option (JValue × List Nat))
    (n : Nat) (bs : List Nat) :
    decodeSeq dec (n + 1) bs =
      (dec bs).bind fun p => (decodeSeq dec n p.2).bind fun q =>
        some (p.1 :: q.1, q.2) := rfl

theorem decodeEntries_succ (fd : Dict)
    (dec : List Nat → Option (JValue × List Nat)) (n : Nat) (bs : List Nat) :
    decodeEntries fd dec (n + 1) bs =
      (decodeKey fd bs).bind fun p => (dec p.2).bind fun q =>
        (decodeEntries fd dec n q.2).bind fun r =>
          some ((p.1, q.1) :: r.1, r.2) := rfl

theorem encodeSeq_decode (enc : JValue → Option (List Nat))
    (dec : List Nat → Option (JValue × List Nat)) (nrm : JValue → JValue)
    (xs : List JValue)
    (hvals : ∀ x ∈ xs, ∃ b, enc x = some b ∧
      ∀ rest, dec (b ++ rest) = some (nrm x, rest)) :
    ∃ body, encodeSeq enc xs = some body ∧
      ∀ rest, decodeSeq dec xs.length (body ++ rest) =
        some (xs.map nrm, rest) := by
  induction xs with
  | nil => exact ⟨[], rfl, fun rest => by simp [decodeSeq]⟩
  | cons x xs ih =>
    obtain ⟨b, hb, hbdec⟩ := hvals x (by simp)
    obtain ⟨body, hbody, hbodydec⟩ :=
      ih fun y hy => hvals y (by simp [hy])
    refine ⟨b ++ body, ?_, ?_⟩
    · rw [encodeSeq, hb, hbody]
      rfl
    · intro rest
      rw [List.length_cons, decodeSeq_succ, List.append_assoc, hbdec]
      simp only [Option.some_bind]
      rw [hbodydec rest]
      rfl

theorem encodeEntriesV_decode (fd vd : Dict) (hfd : DictOK fd)
    (enc : JValue → Option (List Nat))
    (dec : List Nat → Option (JValue × List Nat)) (nrm : JValue → JValue)
    (m : List (List Nat × JValue))
    (hkeys : ∀ kv ∈ m, wfKey fd vd kv.1 = true)
    (hvals : ∀ kv ∈ m, ∃ b, enc kv.2 = some b ∧
      ∀ rest, dec (b ++ rest) = some (nrm kv.2, rest)) :
    ∃ body, encodeEntriesV fd vd enc m = some body ∧
      ∀ rest, decodeEntries fd dec m.length (body ++ rest) =
        some (m.map fun kv => (kv.1, nrm kv.2), rest) := by
  induction m with
  | nil => exact ⟨[], rfl, fun rest => by simp [decodeEntries]⟩
  | cons kv m ih =>
    obtain ⟨k, v⟩ := kv
    obtain ⟨kb, hkb, hkbdec⟩ :=
      encodeKeyBytes_decode fd vd hfd k (hkeys (k, v) (by simp))
    obtain ⟨vb, hvb, hvbdec⟩ := hvals (k, v) (by simp)
    obtain ⟨body, hbody, hbodydec⟩ :=
      ih (fun y hy => hkeys y (by simp [hy])) fun y hy => hvals y (by simp [hy])
    refine ⟨kb ++ vb ++ body, ?_, ?_⟩
    · rw [encodeEntriesV, hkb, hvb, hbody]
      rfl
    · intro rest
      rw [List.length_cons, decodeEntries_succ, List.append_assoc,
        List.append_assoc, hkbdec]
      simp only [Option.some_bind]
      rw [hvbdec]
      simp only [Option.some_bind]
      rw [hbodydec rest]
      rfl

/-! ## mkMap on distinct keys -/

theorem mapPut_fresh (m : List (List Nat × JValue)) (k : List Nat) (v : JValue)
    (h : k ∉ m.map Prod.fst) : mapPut m k v = m ++ [(k, v)] := by
  induction m with
  | nil => rfl
  | cons kv m ih =>
    simp only [List.map_cons, List.mem_cons] at h
    push_neg at h
    rw [mapPut, if_neg (by exact fun hc => h.1 hc.symm), ih h.2]
    rfl

theorem mkMap_go (kvs acc : List (List Nat × JValue))
    (hdisj : ∀ k ∈ kvs.map Prod.fst, k ∉ acc.map Prod.fst)
    (hnd : (kvs.map Prod.fst).Nodup) :
    kvs.foldl (fun m kv => mapPut m kv.1 kv.2) acc = acc ++ kvs := by
  induction kvs generalizing acc with
  | nil => simp
  | cons kv kvs ih =>
    simp only [List.map_cons, List.nodup_cons] at hnd
    rw [List.foldl_cons, mapPut_fresh acc kv.1 kv.2
      (hdisj kv.1 (by simp))]
    rw [ih (acc ++ [(kv.1, kv.2)])
      (by
        intro k hk
        simp only [List.map_append, List.mem_append, List.map_cons,
          List.map_nil, List.mem_singleton]
        push_neg
        refine ⟨hdisj k (by simp [hk]), ?_⟩
        intro hkk
        exact hnd.1 (hkk ▸ hk))
      hnd.2]
    simp

theorem mkMap_nodup (kvs : List (List Nat × JValue))
    (h : (kvs.map Prod.fst).Nodup) : mkMap kvs = kvs := by
  rw [mkMap, mkMap_go kvs [] (by simp) h]
  rfl

/-! ## The round trip -/

theorem encodeV_decode (fd vd : Dict) (hfd : DictOK fd) (hvd : DictOK vd) :
    ∀ (fuel : Nat) (v : JValue), wfV fd vd fuel v = true →
      ∃ bs, encodeV fd vd fuel v = some bs ∧
        ∀ rest : List Nat,
          decodeF fd vd fuel (bs ++ rest) = some (normalizeV fuel v, rest) := by
  intro fuel
  induction fuel with
  | zero => intro v h; cases h
  | succ fuel ih =>
    intro v hwf
    match v with
    | .null =>
      exact ⟨[31], rfl, fun rest => decode_tag31 fd vd fuel rest⟩
    | .bool false =>
      exact ⟨[0], rfl, fun rest => decode_tag0 fd vd fuel rest⟩
    | .bool true =>
      exact ⟨[1], rfl, fun rest => decode_tag1 fd vd fuel rest⟩
    | .num n =>
      simp only [wfV] at hwf
      obtain ⟨bs, h1, h2⟩ := encodeNumber_decode n hwf fd vd fuel []
      refine ⟨bs, h1, fun rest => ?_⟩
      obtain ⟨bs', h1', h2'⟩ := encodeNumber_decode n hwf fd vd fuel rest
      rw [h1] at h1'
      injection h1' with h1'
      rw [h1']
      exact h2'
    | .str s =>
      simp only [wfV] at hwf
      obtain ⟨bs, h1, h2⟩ := encodeString_decode vd hvd s hwf fd fuel []
      refine ⟨bs, h1, fun rest => ?_⟩
      obtain ⟨bs', h1', h2'⟩ := encodeString_decode vd hvd s hwf fd fuel rest
      rw [h1] at h1'
      injection h1' with h1'
      rw [h1']
      exact h2'
    | .arr xs =>
      simp only [wfV, Bool.and_eq_true, decide_eq_true_eq,
        List.all_eq_true] at hwf
      obtain ⟨⟨hne, hle⟩, hall⟩ := hwf
      obtain ⟨body, hbody, hbodydec⟩ :=
        encodeSeq_decode (fun x => encodeV fd vd fuel x)
          (fun b => decodeF fd vd fuel b) (normalizeV fuel) xs
          (fun x hx => ih x (hall x hx))
      by_cases hlong : 256 < xs.length
      · simp only [encodeV, hbody, Option.bind_eq_bind, Option.some_bind,
          if_pos hlong]
        have hmod : xs.length % 65536 = xs.length :=
          Nat.mod_eq_of_lt (by omega)
        rw [hmod]
        refine ⟨_, rfl, fun rest => ?_⟩
        simp only [List.cons_append, List.append_assoc]
        rw [decode_tag25 fd vd fuel xs.length (body ++ rest) (by omega),
          hbodydec rest]
        rfl
      · simp only [encodeV, hbody, Option.bind_eq_bind, Option.some_bind,
          if_neg hlong]
        have hmod : xs.length % 256 = xs.length :=
          Nat.mod_eq_of_lt (by omega)
        rw [hmod]
        refine ⟨_, rfl, fun rest => ?_⟩
        rw [List.cons_append, List.cons_append,
          decode_tag21 fd vd fuel xs.length (body ++ rest), hbodydec rest]
        rfl
    | .obj m =>
      simp only [wfV, Bool.and_eq_true, decide_eq_true_eq,
        List.all_eq_true, Bool.not_eq_true'] at hwf
      obtain ⟨⟨⟨hlen, hbnc⟩, hnd⟩, hall⟩ := hwf
      obtain ⟨body, hbody, hbodydec⟩ :=
        encodeEntriesV_decode fd vd hfd (fun x => encodeV fd vd fuel x)
          (fun b => decodeF fd vd fuel b) (normalizeV fuel) m
          (fun kv hkv => (hall kv hkv).1)
          (fun kv hkv => ih kv.2 (hall kv hkv).2)
      have hkeq : (m.map fun kv => (kv.1, normalizeV fuel kv.2)).map Prod.fst =
          m.map Prod.fst := by
        rw [List.map_map]
        rfl
      have hnd' : ((m.map fun kv => (kv.1, normalizeV fuel kv.2)).map
          Prod.fst).Nodup := by rw [hkeq]; exact hnd
      have hmod : m.length % 256 = m.length := Nat.mod_eq_of_lt (by omega)
      cases hbn : bigNumber m with
      | error u =>
        simp only [encodeV, hbn, hbody, Option.bind_eq_bind, Option.some_bind]
        rw [hmod]
        refine ⟨_, rfl, fun rest => ?_⟩
        rw [List.cons_append, List.cons_append,
          decode_tag22 fd vd fuel m.length (body ++ rest), hbodydec rest]
        simp only [Option.some_bind]
        rw [mkMap_nodup _ hnd']
        rfl
      | ok o =>
        cases o with
        | some out =>
          exfalso
          simp only [bnCollapses, hbn] at hbnc
          cases hbnc
        | none =>
          simp only [encodeV, hbn, hbody, Option.bind_eq_bind,
            Option.some_bind]
          rw [hmod]
          refine ⟨_, rfl, fun rest => ?_⟩
          rw [List.cons_append, List.cons_append,
            decode_tag22 fd vd fuel m.length (body ++ rest), hbodydec rest]
          simp only [Option.some_bind]
          rw [mkMap_nodup _ hnd']
          rfl

/-! ## MapDictionary map lemmas (for the insert claims) -/

theorem sortedPut_get_self (m : List (Nat × List Nat)) (i : Nat) (s : List Nat) :
    numGet (sortedPut m i s) i = some s := by
  induction m with
  | nil => simp [sortedPut, numGet]
  | cons q m ih =>
    obtain ⟨j, t⟩ := q
    rw [sortedPut]
    by_cases h1 : i < j
    · rw [if_pos h1, numGet, if_pos rfl]
    rw [if_neg h1]
    by_cases h2 : i = j
    · rw [if_pos h2, numGet, if_pos rfl]
    · rw [if_neg h2, numGet, if_neg (by omega), ih]

theorem sortedPut_get_other (m : List (Nat × List Nat)) (i : Nat) (s : List Nat)
    (j : Nat) (hj : j ≠ i) :
    numGet (sortedPut m i s) j = numGet m j := by
  induction m with
  | nil => simp [sortedPut, numGet, Ne.symm hj]
  | cons q m ih =>
    obtain ⟨j0, t⟩ := q
    rw [sortedPut]
    by_cases h1 : i < j0
    · rw [if_pos h1, numGet, if_neg (by omega)]
    rw [if_neg h1]
    by_cases h2 : i = j0
    · subst h2
      rw [if_pos rfl]
      simp only [numGet, if_neg (show ¬(i = j) from fun h => hj h.symm)]
    · rw [if_neg h2, numGet, numGet, ih]

theorem assocPut_get_self (m : List (List Nat × Nat)) (s : List Nat) (i : Nat) :
    assocGet (assocPut m s i) s = some i := by
  induction m with
  | nil => simp [assocPut, assocGet]
  | cons q m ih =>
    obtain ⟨t, j⟩ := q
    rw [assocPut]
    by_cases h : t = s
    · rw [if_pos h, assocGet, if_pos h]
    · rw [if_neg h, assocGet, if_neg h, ih]

/-! ## Text dictionary round trip (claim C5) -/

theorem decBytesAux_mem (f : Nat) :
    ∀ n, ∀ c ∈ decBytesAux f n, 48 ≤ c ∧ c ≤ 57 := by
  induction f with
  | zero => intro n c hc; cases hc
  | succ f ih =>
    intro n c hc
    rw [decBytesAux] at hc
    split at hc
    · simp only [List.mem_singleton] at hc
      omega
    · simp only [List.mem_append, List.mem_singleton] at hc
      rcases hc with hc | hc
      · exact ih (n / 10) c hc
      · omega

theorem decBytes_mem (n : Nat) : ∀ c ∈ decBytes n, 48 ≤ c ∧ c ≤ 57 :=
  decBytesAux_mem (n + 1) n

theorem decBytes_ne_nil (n : Nat) : decBytes n ≠ [] := by
  rw [decBytes, decBytesAux]
  split
  · simp
  · simp

theorem parseDecAux_append (acc : Nat) (xs ys : List Nat) :
    parseDecAux acc (xs ++ ys) =
      (parseDecAux acc xs).bind fun m => parseDecAux m ys := by
  induction xs generalizing acc with
  | nil => rfl
  | cons c xs ih =>
    rw [List.cons_append, parseDecAux, parseDecAux]
    split
    · exact ih _
    · rfl

theorem parseDecAux_decBytesAux (f : Nat) :
    ∀ n acc, n < 10 ^ f →
      parseDecAux acc (decBytesAux f n) =
        some (acc * 10 ^ (decBytesAux f n).length + n) := by
  induction f with
  | zero =>
    intro n acc hn
    simp only [pow_zero, Nat.lt_one_iff] at hn
    subst hn
    simp [decBytesAux, parseDecAux]
  | succ f ih =>
    intro n acc hn
    rw [decBytesAux]
    split
    next h =>
      rw [parseDecAux, if_pos (by omega), parseDecAux]
      simp only [List.length_singleton, pow_one]
      congr 1
      omega
    next h =>
      have hdiv : n / 10 < 10 ^ f := by
        rw [Nat.div_lt_iff_lt_mul (by norm_num)]
        calc n < 10 ^ (f + 1) := hn
          _ = 10 ^ f * 10 := by ring
      rw [parseDecAux_append, ih (n / 10) acc hdiv]
      simp only [Option.some_bind]
      rw [parseDecAux, if_pos (by omega), parseDecAux]
      simp only [List.length_append, List.length_singleton, pow_succ]
      congr 1
      rw [← Nat.mul_assoc]
      generalize acc * 10 ^ (decBytesAux f (n / 10)).length = A
      omega

theorem parseDecAux_decBytes (n : Nat) : ∀ acc,
    parseDecAux acc (decBytes n) =
      some (acc * 10 ^ (decBytes n).length + n) := by
  intro acc
  have hn : n < 10 ^ (n + 1) := by
    calc n < 10 ^ n := Nat.lt_pow_self (by norm_num) n
      _ ≤ 10 ^ (n + 1) := Nat.pow_le_pow_right (by norm_num) (by omega)
  exact parseDecAux_decBytesAux (n + 1) n acc hn

theorem parseDec_decBytes (n : Nat) (hn : n < 4294967296) :
    parseDec (decBytes n) = some n := by
  obtain ⟨c, t, hct⟩ : ∃ c t, decBytes n = c :: t := by
    rcases h : decBytes n with _ | ⟨c, t⟩
    · exact absurd h (decBytes_ne_nil n)
    · exact ⟨c, t, rfl⟩
  rw [hct]
  show (parseDecAux 0 (c :: t)).bind
      (fun m => if m < 4294967296 then some m else none) = some n
  rw [← hct, parseDecAux_decBytes n 0]
  simp only [Nat.zero_mul, Nat.zero_add, Option.some_bind]
  rw [if_pos hn]

theorem splitOnNl_ne_nil (bs : List Nat) : splitOnNl bs ≠ [] := by
  induction bs with
  | nil => simp [splitOnNl]
  | cons c cs ih =>
    rw [splitOnNl]
    rcases h : splitOnNl cs with _ | ⟨l, ls⟩
    · exact absurd h ih
    · simp only [h]
      by_cases hc : c = 10 <;> simp [hc]

theorem splitOnNl_chunk (c rest : List Nat) (hc : 10 ∉ c) :
    splitOnNl (c ++ 10 :: rest) = c :: splitOnNl rest := by
  induction c with
  | nil =>
    rcases h : splitOnNl rest with _ | ⟨l, ls⟩
    · exact absurd h (splitOnNl_ne_nil rest)
    · rw [List.nil_append, splitOnNl]
      simp only [h, reduceIte]
  | cons a c ih =>
    have ha : a ≠ 10 := fun h => hc (h ▸ List.mem_cons_self a c)
    have hmem : 10 ∉ c := fun h => hc (List.mem_cons_of_mem a h)
    rw [List.cons_append, splitOnNl]
    simp only [ih hmem, if_neg ha]

theorem splitOnNl_chunks (chunks : List (List Nat))
    (h : ∀ c ∈ chunks, 10 ∉ c) :
    splitOnNl (chunks.flatMap fun c => c ++ [10]) = chunks ++ [[]] := by
  induction chunks with
  | nil => rfl
  | cons c cs ih =>
    rw [List.flatMap_cons,
      show (c ++ [10]) ++ (cs.flatMap fun c => c ++ [10]) =
        c ++ 10 :: cs.flatMap (fun c => c ++ [10]) by simp,
      splitOnNl_chunk c _ (h c (by simp)),
      ih fun x hx => h x (by simp [hx])]
    rfl

theorem dropWhile_eq_self (p : Nat → Bool) (l : List Nat)
    (h : ∀ c, l.head? = some c → p c = false) : l.dropWhile p = l := by
  cases l with
  | nil => rfl
  | cons a t =>
    rw [List.dropWhile_cons, h a rfl]
    simp

theorem trimB_eq_self (l : List Nat)
    (h1 : ∀ c, l.head? = some c → isWsB c = false)
    (h2 : ∀ c, l.getLast? = some c → isWsB c = false) : trimB l = l := by
  rw [trimB, dropWhile_eq_self _ _ h1,
    dropWhile_eq_self _ _ (fun c hc => h2 c (by rwa [← List.head?_reverse])),
    List.reverse_reverse]

theorem isWsB_ge (b : Nat) (h : 34 ≤ b) : isWsB b = false := by
  simp only [isWsB, Bool.or_eq_false_iff, decide_eq_false_iff_not]
  omega

theorem splitAtColon_append (a b : List Nat) (ha : 58 ∉ a) :
    splitAtColon (a ++ 58 :: b) = some (a, b) := by
  induction a with
  | nil => rfl
  | cons c t ih =>
    have hc : c ≠ 58 := fun h => ha (h ▸ List.mem_cons_self c t)
    rw [List.cons_append, splitAtColon, if_neg hc,
      ih fun h => ha (List.mem_cons_of_mem c h)]
    rfl

theorem decBytes_head_digit (n : Nat) :
    ∃ c t, decBytes n = c :: t ∧ 48 ≤ c ∧ c ≤ 57 := by
  rcases h : decBytes n with _ | ⟨c, t⟩
  · exact absurd h (decBytes_ne_nil n)
  · have := decBytes_mem n c (by rw [h]; simp)
    exact ⟨c, t, rfl, this.1, this.2⟩

theorem readLine_entry (d : MapDict) (i : Nat) (v : List Nat)
    (hi : i < 4294967296) (hv : ∀ b ∈ v, 32 ≤ b) :
    readLine d (decBytes i ++ 58 :: 32 :: 34 :: (v ++ [34])) =
      some (d.insertAs (32 :: 34 :: (v ++ [34])) i) := by
  obtain ⟨c, t, hct, hc1, hc2⟩ := decBytes_head_digit i
  set line : List Nat := decBytes i ++ 58 :: 32 :: 34 :: (v ++ [34]) with hline
  have hhead : line.head? = some c := by
    rw [hline, hct, List.cons_append, List.head?_cons]
  have hlast : line.getLast? = some 34 := by
    rw [hline,
      show decBytes i ++ 58 :: 32 :: 34 :: (v ++ [34]) =
        (decBytes i ++ 58 :: 32 :: 34 :: v) ++ [34] by simp,
      List.getLast?_concat]
  have htrim : trimB line = line := by
    apply trimB_eq_self
    · intro c0 hc0
      rw [hhead] at hc0
      injection hc0 with hc0
      subst hc0
      exact isWsB_ge _ (by omega)
    · intro c0 hc0
      rw [hlast] at hc0
      injection hc0 with hc0
      subst hc0
      exact isWsB_ge _ (by omega)
  have hsplit : splitAtColon line = some (decBytes i, 32 :: 34 :: (v ++ [34])) :=
    splitAtColon_append _ _ fun hmem => by
      have := decBytes_mem i 58 hmem
      omega
  have hlen : 0 < line.length := by
    rw [hline, hct]
    simp
  have hhne : (line.head? == some 35) = false := by
    rw [hhead]
    simp only [beq_eq_false_iff_ne, ne_eq, Option.some.injEq]
    omega
  rw [readLine]
  simp only [htrim]
  rw [if_pos (by
    rw [hhne]
    simp only [Bool.not_false, Bool.and_true, decide_eq_true_eq]
    exact hlen)]
  rw [hsplit]
  show Option.map (fun idx => d.insertAs (32 :: 34 :: (v ++ [34])) idx)
      (parseDec (decBytes i)) = _
  rw [parseDec_decBytes i hi]
  rfl

theorem sortedPut_append_big (m : List (Nat × List Nat)) (i : Nat)
    (s : List Nat) (h : ∀ q ∈ m, q.1 < i) :
    sortedPut m i s = m ++ [(i, s)] := by
  induction m with
  | nil => rfl
  | cons q m ih =>
    obtain ⟨j, t⟩ := q
    have hj : j < i := h (j, t) (by simp)
    rw [sortedPut, if_neg (by omega), if_neg (by omega),
      ih fun q hq => h q (by simp [hq])]
    rfl

theorem foldlM_readLine (entries : List (Nat × List Nat)) (d : MapDict)
    (hids : ∀ p ∈ entries, p.1 < 4294967296)
    (hplain : ∀ p ∈ entries, ∀ b ∈ p.2, 32 ≤ b)
    (hbig : ∀ p ∈ entries, ∀ q ∈ d.v, q.1 < p.1)
    (hs : entries.Pairwise fun a b => a.1 < b.1) :
    (entries.map fun p =>
        decBytes p.1 ++ 58 :: 32 :: 34 :: (p.2 ++ [34])).foldlM readLine d =
      some ⟨d.v ++ entries.map fun p => (p.1, 32 :: 34 :: (p.2 ++ [34])),
        (entries.foldl (fun k p =>
          assocPut k (32 :: 34 :: (p.2 ++ [34])) p.1) d.k)⟩ := by
  induction entries generalizing d with
  | nil =>
    obtain ⟨dv, dk⟩ := d
    simp
  | cons p entries ih =>
    obtain ⟨i, v⟩ := p
    rw [List.map_cons, List.foldlM_cons,
      readLine_entry d i v (hids (i, v) (by simp)) (hplain (i, v) (by simp))]
    simp only [Option.bind_eq_bind, Option.some_bind]
    rw [MapDict.insertAs,
      sortedPut_append_big d.v i _ (hbig (i, v) (by simp))]
    rw [ih ⟨d.v ++ [(i, 32 :: 34 :: (v ++ [34]))], _⟩
      (fun q hq => hids q (by simp [hq]))
      (fun q hq => hplain q (by simp [hq]))
      (by
        intro q hq r hr
        simp only [List.mem_append, List.mem_singleton] at hr
        rcases hr with hr | hr
        · exact hbig q (by simp [hq]) r hr
        · rw [hr]
          rcases List.pairwise_cons.mp hs with ⟨hall, _⟩
          exact hall q hq)
      (List.pairwise_cons.mp hs).2]
    rw [List.map_cons, List.foldl_cons, List.append_assoc,
      List.singleton_append]

theorem readDict_writeDict (d : MapDict)
    (hsorted : d.v.Pairwise fun a b => a.1 < b.1)
    (hids : ∀ p ∈ d.v, p.1 < 4294967296)
    (hplain : ∀ p ∈ d.v, ∀ b ∈ p.2, plainChar b = true) :
    ∃ d', (writeDict d).bind readDict = some d' ∧
      d'.v = d.v.map fun p => (p.1, 32 :: 34 :: (p.2 ++ [34])) := by
  have hplain' : ∀ p ∈ d.v, ∀ b ∈ p.2, 32 ≤ b := by
    intro p hp b hb
    have := hplain p hp b hb
    simp only [plainChar, Bool.and_eq_true, decide_eq_true_eq] at this
    exact this.1.1.1
  have hw : writeDict d = some (d.v.flatMap fun p =>
      (decBytes p.1 ++ 58 :: 32 :: 34 :: (p.2 ++ [34])) ++ [10]) := by
    rw [writeDict, if_pos (by
      rw [List.all_eq_true]
      intro p hp
      rw [List.all_eq_true]
      intro b hb
      exact hplain p hp b hb)]
    congr 1
    have hbody : ∀ p : Nat × List Nat,
        decBytes p.1 ++ [58, 32, 34] ++ p.2 ++ [34, 10] =
          (decBytes p.1 ++ 58 :: 32 :: 34 :: (p.2 ++ [34])) ++ [10] :=
      fun p => by simp
    generalize d.v = m
    induction m with
    | nil => rfl
    | cons q m ih =>
      rw [List.flatMap_cons, List.flatMap_cons, ih, hbody q]
  have hno10 : ∀ c ∈ d.v.map fun p =>
      decBytes p.1 ++ 58 :: 32 :: 34 :: (p.2 ++ [34]), 10 ∉ c := by
    intro c hc
    simp only [List.mem_map] at hc
    obtain ⟨p, hp, rfl⟩ := hc
    intro hmem
    simp only [List.mem_append, List.mem_cons, List.mem_singleton] at hmem
    rcases hmem with h | h | h | h | h | h | h
    · exact absurd (decBytes_mem p.1 10 h).1 (by omega)
    · omega
    · omega
    · omega
    · exact absurd (hplain' p hp 10 h) (by omega)
    · omega
    · simp at h
  have hflat : (d.v.flatMap fun p =>
      (decBytes p.1 ++ 58 :: 32 :: 34 :: (p.2 ++ [34])) ++ [10]) =
      ((d.v.map fun p => decBytes p.1 ++ 58 :: 32 :: 34 :: (p.2 ++ [34])).flatMap
        fun c => c ++ [10]) := by
    induction d.v with
    | nil => rfl
    | cons q m ih =>
      rw [List.flatMap_cons, List.map_cons, List.flatMap_cons, ih]
  rw [hw, Option.some_bind, readDict, hflat, splitOnNl_chunks _ hno10,
    List.foldlM_append]
  rw [foldlM_readLine d.v MapDict.empty hids hplain'
    (by intro p hp q hq; cases hq) hsorted]
  simp only [Option.bind_eq_bind, Option.some_bind]
  rw [show ∀ dd : MapDict, List.foldlM readLine dd [[]] = some dd from
    fun dd => rfl]
  refine ⟨_, rfl, ?_⟩
  rw [show MapDict.empty.v = [] from rfl, List.nil_append]

/-- `DictOK` holds for the no-op dictionary. -/
theorem nodictOK : DictOK nodict := fun _ _ h => nomatch h

/-! ## Claim C1 -/

/-- C1, counterexample.  The claim's round trip is stated up to three
normalizations only (integer re-tagging, zero padding to the tag width,
odd-length leading nibble).  The even-length, width-1 hex-string
`"0xAB"` is touched by none of them, yet it decodes back as `"0xab"`:
the decoder re-renders hex lowercase, which the claim does not allow
for. -/
theorem C1_counterexample :
    encodeV nodict nodict 1 (.str (sBytes "0xAB")) = some [4, 171] ∧
    decodeF nodict nodict 1 [4, 171] = some (.str (sBytes "0xab"), []) ∧
    sBytes "0xab" ≠ sBytes "0xAB" :=
  ⟨rfl, rfl, by decide⟩

/-- C1, amended.  For consistent dictionaries (every id returned by
lookup-by-bytes is a u32 that maps back to the same bytes) and every
well-formed value — numbers in i64/u64/finite-f64 range, hex-strings
that decode with a payload of at most 255 bytes, non-hex strings of
byte length ≠ 256 and ≤ 65535, arrays of length ≠ 256 and ≤ 65535,
objects of at most 255 entries with distinct keys that are non-hex,
outside the value dictionary (unless in the field dictionary), and not
matching the BigNumber shape — encoding succeeds and decoding its
output returns exactly the value with each hex-string re-rendered in
lowercase, padded to its tag's fixed width, with a leading zero nibble
when of odd length. -/
theorem C1_roundtrip_amended (fd vd : Dict) (hfd : DictOK fd)
    (hvd : DictOK vd) (fuel : Nat) (v : JValue)
    (hwf : wfV fd vd fuel v = true) (rest : List Nat) :
    ∃ bs, encodeV fd vd fuel v = some bs ∧
      decodeF fd vd fuel (bs ++ rest) = some (normalizeV fuel v, rest) := by
  obtain ⟨bs, h1, h2⟩ := encodeV_decode fd vd hfd hvd fuel v hwf
  exact ⟨bs, h1, h2 rest⟩

/-- C1, witness: the amended round trip at a concrete object. -/
theorem C1_witness :
    ∃ bs, encodeV nodict nodict 3 exVal = some bs ∧
      decodeF nodict nodict 3 (bs ++ []) = some (normalizeV 3 exVal, []) :=
  C1_roundtrip_amended nodict nodict nodictOK nodictOK 3 exVal (by decide) []

/-! ## Claim C2 -/

/-- C2, counterexample.  The claim says the known-unsigned 255 is
emitted with the U8 tag (2) in 2 bytes; the encoder tests `is_i64`
first, so 255 takes the signed cascade and is emitted with the I16
tag (6) in 3 bytes. -/
theorem C2_counterexample :
    encodeNumber (.posInt 255) = some [6, 255, 0] ∧
    [6, 255, 0] ≠ [2, 255] :=
  ⟨rfl, by decide⟩

/-- C2, amended.  `is_i64` is checked first, and a non-negative number
is `is_i64` whenever it is at most `i64::MAX`; therefore every number
representable as i64 takes the narrowest SIGNED tag
(ZERO/I8/I16/I32/I64), the unsigned tags are used only for values above
`i64::MAX` (then always U64), and every finite float is emitted as F64
in 9 bytes. -/
theorem C2_tag_selection (n : JNum) (hn : wfNum n = true) :
    ∃ bs, encodeNumber n = some bs ∧
      bs.head? = some (narrowTagSpec n) ∧
      bs.length = tagLenSpec (narrowTagSpec n) := by
  match n with
  | .float bits =>
    refine ⟨17 :: leBytes 8 bits, rfl, rfl, ?_⟩
    simp [tagLenSpec, narrowTagSpec, leBytes_length]
  | .posInt v =>
    simp only [wfNum, decide_eq_true_eq] at hn
    by_cases hi : v ≤ 9223372036854775807
    · rw [encodeNumber, if_pos hi]
      by_cases h0 : v = 0
      · subst h0
        exact ⟨[18], rfl, rfl, rfl⟩
      have h0i : ¬((v : Int) = 0) := by exact_mod_cast h0
      by_cases h8 : v ≤ 127
      · rw [encI, if_neg h0i, if_pos (by push_cast; omega)]
        refine ⟨_, rfl, ?_, ?_⟩
        · simp only [narrowTagSpec, if_neg h0, if_pos hi, if_pos h8]
          rfl
        · simp only [narrowTagSpec, if_neg h0, if_pos hi, if_pos h8,
            List.length_cons, leBytes_length]
          rfl
      by_cases h16 : v ≤ 32767
      · rw [encI, if_neg h0i, if_neg (by push_cast; omega),
          if_pos (by push_cast; omega)]
        refine ⟨_, rfl, ?_, ?_⟩
        · simp only [narrowTagSpec, if_neg h0, if_pos hi, if_neg h8,
            if_pos h16]
          rfl
        · simp only [narrowTagSpec, if_neg h0, if_pos hi, if_neg h8,
            if_pos h16, List.length_cons, leBytes_length]
          rfl
      by_cases h32 : v ≤ 2147483647
      · rw [encI, if_neg h0i, if_neg (by push_cast; omega),
          if_neg (by push_cast; omega), if_pos (by push_cast; omega)]
        refine ⟨_, rfl, ?_, ?_⟩
        · simp only [narrowTagSpec, if_neg h0, if_pos hi, if_neg h8,
            if_neg h16, if_pos h32]
          rfl
        · simp only [narrowTagSpec, if_neg h0, if_pos hi, if_neg h8,
            if_neg h16, if_pos h32, List.length_cons, leBytes_length]
          rfl
      · rw [encI, if_neg h0i, if_neg (by push_cast; omega),
          if_neg (by push_cast; omega), if_neg (by push_cast; omega)]
        refine ⟨_, rfl, ?_, ?_⟩
        · simp only [narrowTagSpec, if_neg h0, if_pos hi, if_neg h8,
            if_neg h16, if_neg h32]
          rfl
        · simp only [narrowTagSpec, if_neg h0, if_pos hi, if_neg h8,
            if_neg h16, if_neg h32, List.length_cons, leBytes_length]
          rfl
    · rw [encodeNumber, if_neg hi, encU, if_neg (by omega),
        if_neg (by omega), if_neg (by omega), if_neg (by omega)]
      refine ⟨_, rfl, ?_, ?_⟩
      · simp only [narrowTagSpec, if_neg (by omega : ¬v = 0), if_neg hi]
        rfl
      · simp only [narrowTagSpec, if_neg (by omega : ¬v = 0), if_neg hi,
          List.length_cons, leBytes_length]
        rfl
  | .negInt v =>
    simp only [wfNum, decide_eq_true_eq] at hn
    rw [encodeNumber]
    have h0 : ¬(v = 0) := by omega
    by_cases h8 : -128 ≤ v
    · rw [encI, if_neg h0, if_pos (by omega)]
      refine ⟨_, rfl, ?_, ?_⟩
      · simp only [narrowTagSpec, if_neg h0, if_pos h8]
        rfl
      · simp only [narrowTagSpec, if_neg h0, if_pos h8,
          List.length_cons, leBytes_length]
        rfl
    by_cases h16 : -32768 ≤ v
    · rw [encI, if_neg h0, if_neg (by omega), if_pos (by omega)]
      refine ⟨_, rfl, ?_, ?_⟩
      · simp only [narrowTagSpec, if_neg h0, if_neg h8, if_pos h16]
        rfl
      · simp only [narrowTagSpec, if_neg h0, if_neg h8, if_pos h16,
          List.length_cons, leBytes_length]
        rfl
    by_cases h32 : -2147483648 ≤ v
    · rw [encI, if_neg h0, if_neg (by omega), if_neg (by omega),
        if_pos (by omega)]
      refine ⟨_, rfl, ?_, ?_⟩
      · simp only [narrowTagSpec, if_neg h0, if_neg h8, if_neg h16,
          if_pos h32]
        rfl
      · simp only [narrowTagSpec, if_neg h0, if_neg h8, if_neg h16,
          if_pos h32, List.length_cons, leBytes_length]
        rfl
    · rw [encI, if_neg h0, if_neg (by omega), if_neg (by omega),
        if_neg (by omega)]
      refine ⟨_, rfl, ?_, ?_⟩
      · simp only [narrowTagSpec, if_neg h0, if_neg h8, if_neg h16,
          if_neg h32]
        rfl
      · simp only [narrowTagSpec, if_neg h0, if_neg h8, if_neg h16,
          if_neg h32, List.length_cons, leBytes_length]
        rfl

/-- C2, witness: 300 is i64-representable, so it takes the I16 tag (6)
in 3 bytes. -/
theorem C2_witness :
    ∃ bs, encodeNumber (.posInt 300) = some bs ∧
      bs.head? = some (narrowTagSpec (.posInt 300)) ∧
      bs.length = tagLenSpec (narrowTagSpec (.posInt 300)) :=
  C2_tag_selection (.posInt 300) (by decide)

/-! ## Claim C3 -/

/-- C3, counterexample.  A DS tag with the value-dictionary flag set
(byte 52 = 20 | 0x20) whose u32 id (9) is absent from the dictionary
does NOT fail: the decoder falls back to the inline form and returns
the empty string. -/
theorem C3_counterexample :
    decodeF nodict nodict 2 [52, 9, 0, 0, 0, 0] =
      some (.str [], []) ∧
    nodict.get 9 = none :=
  ⟨rfl, rfl⟩

/-- C3, amended.  Only the field-dictionary half of the claim holds: an
object-entry header with nonzero field-id-width bits whose id is absent
from the field dictionary makes the whole decode fail; a DS tag with
the value-dictionary flag set whose id is absent from the value
dictionary instead falls back to the inline u8-length form and
succeeds. -/
theorem C3_dict_miss (fd vd : Dict) (fuel idb : Nat) (w rest : List Nat)
    (hidb : idb < 256) (hfmiss : fd.get idb = none)
    (hvmiss : vd.get idb = none) (hw : w.length ≤ 255) :
    decodeF fd vd (fuel + 1) (22 :: 1 :: 66 :: idb :: rest) = none ∧
    decodeF fd vd (fuel + 1)
        (52 :: (leBytes 4 idb ++ (w.length :: (w ++ rest)))) =
      some (.str w, rest) := by
  constructor
  · rw [decode_tag22 fd vd fuel 1 (66 :: idb :: rest), decodeEntries_succ]
    have hk : decodeKey fd (66 :: idb :: rest) = none := by
      simp [decodeKey, takeByte, readLE_one, hfmiss]
    rw [hk]
    rfl
  · exact decode_tag52_miss fd vd fuel idb w rest (by omega) hvmiss

/-- C3, witness: id 9 misses the empty dictionaries; the object entry
fails, the flagged DS string falls back to inline "hi". -/
theorem C3_witness :
    decodeF nodict nodict 1 (22 :: 1 :: 66 :: 9 :: []) = none ∧
    decodeF nodict nodict 1
        (52 :: (leBytes 4 9 ++ ((sBytes "hi").length ::
          (sBytes "hi" ++ [])))) =
      some (.str (sBytes "hi"), []) :=
  C3_dict_miss nodict nodict 0 9 (sBytes "hi") [] (by decide) rfl rfl
    (by decide)

/-! ## Claim C4 -/

/-- C4, confirmed.  When a DS tag carries the value-dictionary flag
(byte 52 = 20 | 0x20) and the u32 LE id that follows has no entry in
the value dictionary, the decoder reads a u8 length and that many
inline bytes and returns the resulting string without error. -/
theorem C4_vd_fallback (fd vd : Dict) (fuel id : Nat) (w rest : List Nat)
    (hid : id < 4294967296) (hmiss : vd.get id = none)
    (hw : w.length ≤ 255) :
    decodeF fd vd (fuel + 1)
        (52 :: (leBytes 4 id ++ (w.length :: (w ++ rest)))) =
      some (.str w, rest) :=
  decode_tag52_miss fd vd fuel id w rest hid hmiss

/-- C4, witness at id 7, inline string "hi". -/
theorem C4_witness :
    decodeF nodict nodict 1
        (52 :: (leBytes 4 7 ++ ((sBytes "hi").length ::
          (sBytes "hi" ++ [])))) =
      some (.str (sBytes "hi"), []) :=
  C4_vd_fallback nodict nodict 0 7 (sBytes "hi") [] (by decide) rfl
    (by decide)

/-! ## Claim C5 -/

/-- C5, counterexample.  Writing the dictionary `1 ↦ "alpha"` and
reading the text back does NOT return the same dictionary: `write` uses
Rust's `{:?}` formatting (a leading space after the colon and quotes
around the value), and `from` stores the remainder of the line after
the first colon verbatim, without trimming it or stripping the quotes,
so id 1 now maps to ` "alpha"`. -/
theorem C5_counterexample :
    ((writeDict exDictA).bind readDict).map MapDict.v =
      some [(1, 32 :: 34 :: (sBytes "alpha" ++ [34]))] ∧
    exDictA.v = [(1, sBytes "alpha")] ∧
    (32 :: 34 :: (sBytes "alpha" ++ [34])) ≠ sBytes "alpha" :=
  ⟨rfl, rfl, by decide⟩

/-- C5, amended.  The text round trip is not the identity: for a
dictionary with strictly increasing u32 ids whose values are printable
ASCII without quote or backslash (so Rust's Debug formatting adds no
escapes), `read_text(write_text(d))` has the same ids in the same
order, but every id maps to a space, a quote, the original bytes, and a
closing quote; the round trip is the identity only for the empty
dictionary. -/
theorem C5_text_roundtrip (d : MapDict)
    (hsorted : d.v.Pairwise fun a b => a.1 < b.1)
    (hids : ∀ p ∈ d.v, p.1 < 4294967296)
    (hplain : ∀ p ∈ d.v, ∀ b ∈ p.2, plainChar b = true) :
    ∃ d', (writeDict d).bind readDict = some d' ∧
      d'.v = d.v.map fun p => (p.1, 32 :: 34 :: (p.2 ++ [34])) :=
  readDict_writeDict d hsorted hids hplain

/-- C5, witness at the dictionary `1 ↦ "alpha"`. -/
theorem C5_witness :
    ∃ d', (writeDict exDictA).bind readDict = some d' ∧
      d'.v = exDictA.v.map fun p => (p.1, 32 :: 34 :: (p.2 ++ [34])) :=
  C5_text_roundtrip exDictA (by decide) (by decide) (by decide)

/-! ## Claim C6 -/

/-- C6, counterexample.  Encoding `"0x100"` does not produce the bytes
`0C 00 01`: it produces `0C 01 00` (the B16 payload is written
little-endian).  Decoding the claim's bytes `0C 00 01` yields
`"0x0001"`, not `"0x0100"`. -/
theorem C6_counterexample :
    encodeV nodict nodict 1 (.str (sBytes "0x100")) = some [12, 1, 0] ∧
    ([12, 1, 0] : List Nat) ≠ [12, 0, 1] ∧
    decodeF nodict nodict 1 [12, 0, 1] =
      some (.str (sBytes "0x0001"), []) :=
  ⟨rfl, by decide, rfl⟩

/-- C6, amended.  Encoding `"0x100"` (empty dictionaries) produces
exactly the 3 bytes `0C 01 00`, and decoding THOSE bytes yields the
width-aligned string `"0x0100"`. -/
theorem C6_hex100 :
    encodeV nodict nodict 1 (.str (sBytes "0x100")) = some [12, 1, 0] ∧
    decodeF nodict nodict 1 [12, 1, 0] =
      some (.str (sBytes "0x0100"), []) :=
  ⟨rfl, rfl⟩

/-! ## Claim C7 -/

set_option maxRecDepth 10000 in
/-- C7: the claim (and the spec's table) put the DS/DWS boundary at 255
bytes; the code uses `> 256`, so a non-hex string of exactly 256 bytes
is emitted as DS whose u8 length wraps to 0.  The decoder then returns
the empty string and leaves all 256 payload bytes unread: the data is
lost, which contradicts the crate's round-trip purpose — an off-by-one
bug in `encode_string`. -/
theorem C7_string256 :
    encodeV nodict nodict 1 (.str (List.replicate 256 97)) =
      some (20 :: 0 :: List.replicate 256 97) ∧
    decodeF nodict nodict 1 (20 :: 0 :: List.replicate 256 97) =
      some (.str [], List.replicate 256 97) ∧
    (List.replicate 256 97).length = 256 :=
  ⟨rfl, rfl, rfl⟩

/-! ## Claim C8 -/

set_option maxRecDepth 10000 in
/-- C8: the claim (with the spec) mandates the long object form DWO
(tag 26, u16 count) for objects of more than 255 entries; the encoder
only ever emits the short DO form (tag 22) with the entry count cast
`as u8`, so a 256-entry object is emitted as `16 00 …` — a DO object
whose declared size 0 differs from the real entry count 256, and the
256 encoded entries are stranded after an empty object. -/
theorem C8_object256 :
    (encodeV nodict nodict 2 (.obj bigObj256)).map (List.take 2) =
      some [22, 0] ∧
    bigObj256.length = 256 :=
  ⟨rfl, rfl⟩

/-! ## Claim C9 -/

/-- C9, confirmed.  A two-entry object whose `hex` key holds a
decodable hex-string collapses to the generic-bytes DB form whenever
the `type` entry does not block it — that is, when `type` is absent,
not a string, or the string `"BigNumber"` (`bnTypeOk`); only a `type`
that is a string different from `"BigNumber"` escapes.  The DB bytes
decode back to a hex STRING, not an object. -/
theorem C9_bignumber (m : List (List Nat × JValue)) (s out : List Nat)
    (hlen : m.length = 2)
    (hhex : mapGet m (sBytes "hex") = some (.str s))
    (h0x : with0x s = true)
    (hdec : hexDecode (hexPad (s.drop 2)) = some out)
    (hout : out.length ≤ 255)
    (fd vd : Dict) (fuel : Nat) (rest : List Nat) :
    (bnTypeOk (mapGet m (sBytes "type")) = true →
      bigNumber m = .ok (some out) ∧
      encodeV fd vd (fuel + 1) (.obj m) =
        some (19 :: out.length % 256 :: out) ∧
      decodeF fd vd (fuel + 1) ((19 :: out.length % 256 :: out) ++ rest) =
        some (.str (48 :: 120 :: hexEncode out), rest)) ∧
    (∀ t, mapGet m (sBytes "type") = some (.str t) →
      t ≠ sBytes "BigNumber" → bigNumber m = .ok none) := by
  have hexPart : bigNumberHex m = .ok (some out) := by
    rw [bigNumberHex, hhex]
    simp only [if_pos h0x, hdec]
  constructor
  · intro htype
    have hbn : bigNumber m = .ok (some out) := by
      rw [bigNumber, if_pos hlen]
      rcases ht : mapGet m (sBytes "type") with _ | t
      · exact hexPart
      · rw [ht] at htype
        cases t with
        | str u =>
          have hu : u = sBytes "BigNumber" := by
            simpa [bnTypeOk] using htype
          subst hu
          show (if sBytes "BigNumber" ≠ sBytes "BigNumber" then
              Except.ok none else bigNumberHex m) = Except.ok (some out)
          rw [if_neg (by simp)]
          exact hexPart
        | null => exact hexPart
        | bool b => exact hexPart
        | num q => exact hexPart
        | arr xs => exact hexPart
        | obj q => exact hexPart
    refine ⟨hbn, ?_, ?_⟩
    · simp only [encodeV, hbn]
    · have hmod : out.length % 256 = out.length := Nat.mod_eq_of_lt (by omega)
      rw [hmod, List.cons_append, List.cons_append,
        decode_tag19 fd vd fuel out rest]
  · intro t ht htne
    rw [bigNumber, if_pos hlen, ht]
    show (if t ≠ sBytes "BigNumber" then Except.ok none
        else bigNumberHex m) = Except.ok none
    rw [if_pos htne]

/-- C9, witness: `{type: 1, hex: "0x1ff"}` — `type` is a number, not a
string, and the object still collapses to DB bytes `01 FF`. -/
theorem C9_witness :
    bigNumber exBN = .ok (some [1, 255]) ∧
    encodeV nodict nodict 1 (.obj exBN) =
      some (19 :: ([1, 255] : List Nat).length % 256 :: [1, 255]) ∧
    decodeF nodict nodict 1
        ((19 :: ([1, 255] : List Nat).length % 256 :: [1, 255]) ++ []) =
      some (.str (48 :: 120 :: hexEncode [1, 255]), []) :=
  (C9_bignumber exBN (sBytes "0x1ff") [1, 255] rfl rfl rfl rfl (by decide)
    nodict nodict 0 []).1 rfl

/-! ## Claim C10 -/

/-- C10, counterexample.  The claim universally asserts that inserting
an already-present string leaves TWO ids mapping to it; when the
dictionary's single entry sits at id 2 (ids need not be contiguous),
the fresh id `1 + len = 2` coincides with it, `insert` rewrites the
same slot, and afterwards only ONE id maps to the string — the maps
stay mutually inverse. -/
theorem C10_counterexample :
    exDictB.v.length = 1 ∧
    exDictB.findStr (sBytes "a") = some 2 ∧
    (exDictB.insert (sBytes "a")).v = [(2, sBytes "a")] :=
  ⟨rfl, rfl, rfl⟩

/-- C10, amended.  For every MapDictionary of size n containing string
s under id j with j ≠ n+1 (the fresh id), `insert(s)` assigns id n+1
and remaps s to it: afterwards lookup-by-bytes returns n+1 while both
id n+1 and the old id j still map to s, so two distinct ids map to the
same string and the two maps are no longer mutually inverse. -/
theorem C10_insert_duplicate (d : MapDict) (s : List Nat) (j : Nat)
    (hfind : d.findStr s = some j) (hget : d.get j = some s)
    (hj : j ≠ 1 + d.v.length) :
    (d.insert s).findStr s = some (1 + d.v.length) ∧
    (d.insert s).get (1 + d.v.length) = some s ∧
    (d.insert s).get j = some s ∧
    1 + d.v.length ≠ j := by
  refine ⟨?_, ?_, ?_, fun h => hj h.symm⟩
  · exact assocPut_get_self d.k s (1 + d.v.length)
  · exact sortedPut_get_self d.v (1 + d.v.length) s
  · rw [MapDict.insert, MapDict.insertAs, MapDict.get]
    rw [show (⟨sortedPut d.v (1 + d.v.length) s,
        assocPut d.k s (1 + d.v.length)⟩ : MapDict).v =
      sortedPut d.v (1 + d.v.length) s from rfl]
    rw [sortedPut_get_other d.v (1 + d.v.length) s j hj]
    exact hget

/-- C10, witness: the dictionary `a ↦ 1, b ↦ 2`; inserting "a" maps it
to the fresh id 3 while id 1 still resolves to "a". -/
theorem C10_witness :
    (exDictC.insert (sBytes "a")).findStr (sBytes "a") =
      some (1 + exDictC.v.length) ∧
    (exDictC.insert (sBytes "a")).get (1 + exDictC.v.length) =
      some (sBytes "a") ∧
    (exDictC.insert (sBytes "a")).get 1 = some (sBytes "a") ∧
    1 + exDictC.v.length ≠ 1 :=
  C10_insert_duplicate exDictC (sBytes "a") 1 rfl rfl (by decide)
